import Mathlib

/-!
The RPM label comparison of rpmcmp.

A shallow embedding of `include/rpmcmp.hpp` (namespace `rpmcmplib`).

* A `std::string` / `std::string_view` is a `List Char`.  Every character the
  code inspects (`-`, `~`, `^`, digits, letters) is ASCII, and the
  classification functions `std::isdigit` / `std::isalpha` are the ones of the
  default "C" locale, so a character outside ASCII is a separator here exactly
  as each of its bytes is in the source.
* A function that may throw returns `Except Exn _`.
* `long long` values are `Int`, with the range check of `std::from_chars`
  written out.
* `RpmVer::cmp_impl` builds its two vectors of `std::string_view` on the
  strings that `version()` returns by value.  Those strings are gone when the
  comparison loop runs, so the loop reads released storage through views that
  kept only their sizes.  What it finds there is a parameter of the
  comparison, `Storage`; nothing is assumed about it beyond `Storage.same`.
-/

namespace rpmcmplib

/-- The exceptions the code can raise: `std::invalid_argument` (with its
`what()` text) and the `std::out_of_range` of `std::vector::at`. -/
inductive Exn where
  | invalid_argument (what : List Char)
  | out_of_range
  deriving DecidableEq, Repr

/-- The `std::string::find(substr)` of the standard library, searching from
the list `str`, whose first character has index `i`. -/
def findFrom (substr : List Char) : List Char → Nat → Option Nat
  | [], i => if substr = [] then some i else none
  | c :: str, i =>
    if substr <+: (c :: str) then some i else findFrom substr str (i + 1)

/-- The `str.find(substr)` of the standard library; `none` is `npos`. -/
def find (str substr : List Char) : Option Nat :=
  findFrom substr str 0

namespace utils

/-- The helper `utils::contains`: `str.find(substr) != std::string::npos`. -/
def contains (str substr : List Char) : Bool :=
  find str substr != none

end utils

/-- The `std::isdigit` of the "C" locale. -/
def isdigit (c : Char) : Bool :=
  48 ≤ c.toNat && c.toNat ≤ 57

/-- The `std::isalpha` of the "C" locale. -/
def isalpha (c : Char) : Bool :=
  (65 ≤ c.toNat && c.toNat ≤ 90) || (97 ≤ c.toNat && c.toNat ≤ 122)

/-- The largest `long long`. -/
def LLONG_MAX : Int := 2 ^ 63 - 1

/-- The smallest `long long`. -/
def LLONG_MIN : Int := -(2 ^ 63)

/-- The error code of `std::from_chars`; `ok` is the value `std::errc()`. -/
inductive Errc where
  | ok
  | invalid_argument
  | result_out_of_range
  deriving DecidableEq, Repr

/-- The number a run of decimal digits denotes, most significant digit
first, continuing from the value `acc` read so far. -/
def digitsValue (acc : Nat) : List Char → Nat
  | [] => acc
  | c :: cs => digitsValue (10 * acc + (c.toNat - 48)) cs

/-- The `std::from_chars(first, last, value)` of the standard library for a
`long long` in base 10: an optional minus sign and then the longest run of
digits.  No digit gives `invalid_argument`, a number outside the range of
`long long` gives `result_out_of_range`, and in both cases `value` keeps what
it held (`init`).  The returned pointer is not used by the code. -/
def from_chars (s : List Char) (init : Int) : Errc × Int :=
  let neg := s.head? == some '-'
  let body := if neg then s.tail else s
  let digits := body.takeWhile isdigit
  if digits = [] then (Errc.invalid_argument, init)
  else
    let v : Int := if neg then -(digitsValue 0 digits : Int) else (digitsValue 0 digits : Int)
    if LLONG_MIN ≤ v ∧ v ≤ LLONG_MAX then (Errc.ok, v)
    else (Errc.result_out_of_range, init)

/-- The `std::string_view::compare` of the standard library, as the sign of
its result: the characters are compared one by one over the common length,
and when they all agree the shorter view is the smaller. -/
def compare : List Char → List Char → Int
  | [], [] => 0
  | [], _ :: _ => -1
  | _ :: _, [] => 1
  | a :: as, b :: bs =>
    if a < b then -1
    else if b < a then 1
    else compare as bs

/-- The `std::vector::at`, which throws `std::out_of_range`. -/
def vectorAt {α : Type} (v : List α) (i : Nat) : Except Exn α :=
  match v[i]? with
  | some x => Except.ok x
  | none => Except.error Exn.out_of_range

/-- What the comparison loop of `RpmVer::cmp_impl` finds in memory.

`version()` returns `m_version` by value, and `cmp_impl` builds `lhsSegments`
and `rhsSegments` on such temporaries, each destroyed at the end of its
declaration.  The views in the two vectors keep their sizes, which they hold by
value, and point into storage that has been released when the loop reads
them.  `lhs version other i j` is the byte the loop finds at offset `j` of
the view `lhsSegments.at(i)` when `version` is compared with `other`, and
`rhs version other i j` is the same for `rhsSegments.at(i)`.  A storage
stands for one run: the same two labels find the same bytes each time they
are compared in it.

The two sides of a comparison of a label with itself held the same characters
behind views of the same index and size; `same` says the loop finds the same
bytes there. -/
structure Storage where
  lhs : List Char → List Char → Nat → Nat → Char
  rhs : List Char → List Char → Nat → Nat → Char
  same : ∀ (version : List Char) (i j : Nat), lhs version version i j = rhs version version i j

namespace Storage

/-- The bytes that a view of `size` bytes shows, `bytes j` being the byte at
offset `j`. -/
def view (bytes : Nat → Char) (size : Nat) : List Char :=
  (List.range size).map bytes

/-- A vector of views as the loop reads it, from index `i` on: every view has
the size the segment had when the vector was built, and shows the bytes the
storage holds. -/
def found (bytes : Nat → Nat → Char) : List (List Char) → Nat → List (List Char)
  | [], _ => []
  | segment :: rest, i => view (bytes i) segment.length :: found bytes rest (i + 1)

end Storage

namespace RpmVer

/-- The static `RpmVer::isValid`. -/
def isValid (label : List Char) : List Char :=
  if find label "-".toList != none then
    "Label can't have hyphen symbol!".toList
  else
    "".toList

/-- The constructor `RpmVer::RpmVer`: the object holds `m_version`. -/
def new (version : List Char) : Except Exn (List Char) :=
  let isValidCheckResult := isValid version
  if !isValidCheckResult.isEmpty then
    Except.error (Exn.invalid_argument isValidCheckResult)
  else
    Except.ok version

/-- The body of the `for` loop of `RpmVer::segments` over the characters that
are left, with the two local variables `segmentsVector` and `segment`, and
the code after the loop once no character is left. -/
def segmentsLoop : List Char → List (List Char) → List Char → List (List Char)
  | [], segmentsVector, segment =>
    if !segment.isEmpty then segmentsVector ++ [segment] else segmentsVector
  | c :: rest, segmentsVector, segment =>
    if isdigit c || isalpha c then
      match segment.getLast? with
      | none => segmentsLoop rest segmentsVector [c]
      | some back =>
        if (isdigit c && isdigit back) || (isalpha c && isalpha back) then
          segmentsLoop rest segmentsVector (segment ++ [c])
        else
          segmentsLoop rest (segmentsVector ++ [segment]) [c]
    else
      if !segment.isEmpty then
        segmentsLoop rest (segmentsVector ++ [segment]) []
      else
        segmentsLoop rest segmentsVector segment

/-- The static `RpmVer::segments`. -/
def segments (label : List Char) : List (List Char) :=
  segmentsLoop label [] []

/-- One pass through the body of the comparison loop of `RpmVer::cmp_impl`
for the segments `l` and `r`: `some x` when the body returns `x`, `none` when
it falls through to the next index. -/
def cmpSegment (l r : List Char) : Option Int :=
  let lhs := from_chars l 0
  let rhs := from_chars r 0
  let lhsNumber := lhs.2
  let rhsNumber := rhs.2
  let lhsIsNumber := decide (lhs.1 = Errc.ok)
  let rhsIsNumber := decide (rhs.1 = Errc.ok)
  if lhsIsNumber && rhsIsNumber then
    if lhsNumber > rhsNumber then some 1
    else if lhsNumber < rhsNumber then some (-1)
    else none
  else if !lhsIsNumber && !rhsIsNumber then
    if l ≠ r then
      if compare l r < 0 then some (-1) else some 1
    else none
  else
    if lhsIsNumber then some 1
    else if rhsIsNumber then some (-1)
    else none

/-- The comparison loop of `RpmVer::cmp_impl` from index `i` with `n`
iterations to go (`n = length - i`), followed by the comparison of the sizes
after the loop.  The two vectors are given as the loop reads them. -/
def cmpLoop (lhsSegments rhsSegments : List (List Char)) : Nat → Nat → Except Exn Int
  | 0, _ =>
    if lhsSegments.length = rhsSegments.length then Except.ok 0
    else if lhsSegments.length > rhsSegments.length then Except.ok 1
    else Except.ok (-1)
  | n + 1, i =>
    match vectorAt lhsSegments i, vectorAt rhsSegments i with
    | Except.error e, _ => Except.error e
    | Except.ok _, Except.error e => Except.error e
    | Except.ok l, Except.ok r =>
      match cmpSegment l r with
      | some x => Except.ok x
      | none => cmpLoop lhsSegments rhsSegments n (i + 1)

/-- The private `RpmVer::cmp_impl`, on the `m_version` of the two objects.
The marker checks read the labels themselves.  The segments are cut from the
temporaries `version()` and `other.version()`, which are destroyed before the
loop starts: the loop gets the views with their sizes and with the bytes that
`σ` holds. -/
def cmp_impl (σ : Storage) (version other : List Char) : Except Exn Int :=
  if utils.contains version "~".toList then Except.ok (-1)
  else if utils.contains other "~".toList then Except.ok 1
  else if utils.contains version "^".toList then Except.ok 1
  else if utils.contains other "^".toList then Except.ok (-1)
  else
    let lhsSegments := Storage.found (σ.lhs version other) (segments version) 0
    let rhsSegments := Storage.found (σ.rhs version other) (segments other) 0
    let length := min lhsSegments.length rhsSegments.length
    cmpLoop lhsSegments rhsSegments length 0

/-- The `RpmVer::operator<`. -/
def lt (σ : Storage) (version other : List Char) : Except Exn Bool :=
  (cmp_impl σ version other).map (fun x => decide (x = -1))

/-- The `RpmVer::operator==`. -/
def eq (σ : Storage) (version other : List Char) : Except Exn Bool :=
  (cmp_impl σ version other).map (fun x => decide (x = 0))

/-- The `RpmVer::operator>`. -/
def gt (σ : Storage) (version other : List Char) : Except Exn Bool :=
  (cmp_impl σ version other).map (fun x => decide (x = 1))

/-- The static `RpmVer::cmp`. -/
def cmp (σ : Storage) (lhs rhs : List Char) : Except Exn Int :=
  match new lhs with
  | Except.error e => Except.error e
  | Except.ok lhsEvr =>
    match new rhs with
    | Except.error e => Except.error e
    | Except.ok rhsEvr =>
      match lt σ lhsEvr rhsEvr with
      | Except.error e => Except.error e
      | Except.ok true => Except.ok (-1)
      | Except.ok false =>
        match eq σ lhsEvr rhsEvr with
        | Except.error e => Except.error e
        | Except.ok true => Except.ok 0
        | Except.ok false => Except.ok 1

end RpmVer

/-- The message of `RpmVer::isValid` for a label with a hyphen. -/
def hyphenMessage : List Char :=
  "Label can't have hyphen symbol!".toList

/-- The library entry `VersionValidate` of the specification. -/
def VersionValidate (label : List Char) : List Char :=
  RpmVer.isValid label

/-- The library entry `VersionCompare` of the specification, in a run in
which the comparison loop finds the bytes of `σ`. -/
def VersionCompare (σ : Storage) (lhs rhs : List Char) : Except Exn Int :=
  RpmVer.cmp σ lhs rhs

/-- The library entry `VersionSegments` of the specification. -/
def VersionSegments (label : List Char) : List (List Char) :=
  RpmVer.segments label

/-! ## The EVR part of the library -/

/-- The value `std::string::npos`, the largest `size_t`. -/
def npos : Nat := 2 ^ 64 - 1

/-- The `size_t` that a call of `find` returns: the index, or `npos`. -/
def pos (r : Option Nat) : Nat :=
  r.getD npos

/-- The `str.find(c)` of the standard library for one character. -/
def findChar (str : List Char) (c : Char) : Option Nat :=
  find str [c]

/-- The difference `a - b` of two `size_t` values that are positions in a
string (so below `2 ^ 64`): it wraps around when `b` is the larger one. -/
def sizeSub (a b : Nat) : Nat :=
  if b ≤ a then a - b else 2 ^ 64 - (b - a)

/-- The `str.substr(p, n)` of the standard library, which throws
`std::out_of_range` when `p` is beyond the end and otherwise cuts `n` down to
what is left. -/
def substr (str : List Char) (p n : Nat) : Except Exn (List Char) :=
  if p > str.length then Except.error Exn.out_of_range
  else Except.ok ((str.drop p).take n)

/-- The `std::isspace` of the "C" locale: space, `\t`, `\n`, `\v`, `\f`,
`\r`. -/
def isspace (c : Char) : Bool :=
  c.toNat = 32 || (9 ≤ c.toNat && c.toNat ≤ 13)

/-- The largest `int`. -/
def INT_MAX : Int := 2 ^ 31 - 1

/-- The smallest `int`. -/
def INT_MIN : Int := -(2 ^ 31)

/-- The largest `unsigned long`. -/
def ULONG_MAX : Nat := 2 ^ 64 - 1

/-- The `std::stoi(str)` of the standard library (base 10, through
`strtol`): leading white space is skipped, one sign `+` or `-` is accepted,
then the longest run of digits is read and what follows is ignored.  No digit
throws `std::invalid_argument`, a number outside the range of `int` throws
`std::out_of_range`. -/
def stoi (str : List Char) : Except Exn Int :=
  let body := str.dropWhile isspace
  let neg := body.head? == some '-'
  let signed := neg || body.head? == some '+'
  let digits := (if signed then body.tail else body).takeWhile isdigit
  if digits = [] then Except.error (Exn.invalid_argument "stoi".toList)
  else
    let v : Int := if neg then -(digitsValue 0 digits : Int) else (digitsValue 0 digits : Int)
    if v < INT_MIN ∨ INT_MAX < v then Except.error Exn.out_of_range
    else Except.ok v

/-- The `std::stoul(str)` of the standard library (base 10, through
`strtoul`): as `stoi`, but the number is read as an `unsigned long`, a number
above `ULONG_MAX` throws `std::out_of_range`, and after a `-` the number is
negated modulo `2 ^ 64`. -/
def stoul (str : List Char) : Except Exn Nat :=
  let body := str.dropWhile isspace
  let neg := body.head? == some '-'
  let signed := neg || body.head? == some '+'
  let digits := (if signed then body.tail else body).takeWhile isdigit
  if digits = [] then Except.error (Exn.invalid_argument "stoul".toList)
  else
    let n := digitsValue 0 digits
    if ULONG_MAX < n then Except.error Exn.out_of_range
    else Except.ok (if neg then (2 ^ 64 - n) % 2 ^ 64 else n)

/-- The members of an `RpmEvr` object: `m_epoch`, `m_version`, `m_release`,
as the accessors `epoch()`, `version()`, `release()` return them. -/
structure RpmEvr where
  epoch : Nat
  version : List Char
  release : List Char
  deriving DecidableEq, Repr

namespace RpmEvr

/-- The static `RpmEvr::isValid`; the `std::stoi` in it may throw. -/
def isValid (evr : List Char) : Except Exn (List Char) :=
  if List.count ':' evr > 1 then
    Except.ok "EVR must contain only one colon symbol!".toList
  else
    let negativeEpoch : Except Exn Bool :=
      if utils.contains evr ":".toList then
        match substr evr 0 (pos (findChar evr ':')) with
        | Except.error e => Except.error e
        | Except.ok text =>
          match stoi text with
          | Except.error e => Except.error e
          | Except.ok n => Except.ok (decide (n < 0))
      else Except.ok false
    match negativeEpoch with
    | Except.error e => Except.error e
    | Except.ok true => Except.ok "Epoch must be a positive number!".toList
    | Except.ok false =>
      if List.count '-' evr > 1 then
        Except.ok "EVR must contain only one hyphen symbol!".toList
      else
        Except.ok "".toList

/-- The private `RpmEvr::parseEvr`, on an object whose members still hold
their initial values `0`, `""`, `""`. -/
def parseEvr (evr : List Char) : Except Exn RpmEvr :=
  let epochRead : Except Exn Nat :=
    if utils.contains evr ":".toList then
      match substr evr 0 (pos (findChar evr ':')) with
      | Except.error e => Except.error e
      | Except.ok text => stoul text
    else Except.ok 0
  match epochRead with
  | Except.error e => Except.error e
  | Except.ok m_epoch =>
    if utils.contains evr "-".toList then
      let versionStart := if findChar evr ':' = none then 0 else pos (findChar evr ':') + 1
      let versionSize := sizeSub (pos (findChar evr '-')) versionStart
      match substr evr versionStart versionSize with
      | Except.error e => Except.error e
      | Except.ok m_version =>
        match substr evr (pos (findChar evr '-') + 1) evr.length with
        | Except.error e => Except.error e
        | Except.ok m_release => Except.ok ⟨m_epoch, m_version, m_release⟩
    else if utils.contains evr ":".toList then
      match substr evr (pos (findChar evr ':') + 1) evr.length with
      | Except.error e => Except.error e
      | Except.ok m_version => Except.ok ⟨m_epoch, m_version, []⟩
    else
      Except.ok ⟨m_epoch, evr, []⟩

/-- The constructor `RpmEvr::RpmEvr`. -/
def new (evr : List Char) : Except Exn RpmEvr :=
  match isValid evr with
  | Except.error e => Except.error e
  | Except.ok isValidCheckResult =>
    if !isValidCheckResult.isEmpty then
      Except.error (Exn.invalid_argument isValidCheckResult)
    else
      parseEvr evr

/-- The private `RpmEvr::cmp_impl`. -/
def cmp_impl (σ : Storage) (self other : RpmEvr) : Except Exn Int :=
  if self.epoch > other.epoch then Except.ok 1
  else if self.epoch < other.epoch then Except.ok (-1)
  else
    match RpmVer.cmp σ self.version other.version with
    | Except.error e => Except.error e
    | Except.ok versionComparison =>
      if versionComparison ≠ 0 then Except.ok versionComparison
      else
        match RpmVer.cmp σ self.release other.release with
        | Except.error e => Except.error e
        | Except.ok releaseComparison =>
          if releaseComparison ≠ 0 then Except.ok releaseComparison
          else Except.ok 0

/-- The `RpmEvr::operator<`. -/
def lt (σ : Storage) (self other : RpmEvr) : Except Exn Bool :=
  (cmp_impl σ self other).map (fun x => decide (x = -1))

/-- The `RpmEvr::operator==`. -/
def eq (σ : Storage) (self other : RpmEvr) : Except Exn Bool :=
  (cmp_impl σ self other).map (fun x => decide (x = 0))

/-- The static `RpmEvr::cmp`. -/
def cmp (σ : Storage) (lhs rhs : List Char) : Except Exn Int :=
  match new lhs with
  | Except.error e => Except.error e
  | Except.ok lhsEvr =>
    match new rhs with
    | Except.error e => Except.error e
    | Except.ok rhsEvr =>
      match lt σ lhsEvr rhsEvr with
      | Except.error e => Except.error e
      | Except.ok true => Except.ok (-1)
      | Except.ok false =>
        match eq σ lhsEvr rhsEvr with
        | Except.error e => Except.error e
        | Except.ok true => Except.ok 0
        | Except.ok false => Except.ok 1

end RpmEvr

/-- The library entry `EvrValidate` of the specification. -/
def EvrValidate (evr : List Char) : Except Exn (List Char) :=
  RpmEvr.isValid evr

/-- The library entry `EvrCompare` of the specification, in a run in which
the comparison loop finds the bytes of `σ`. -/
def EvrCompare (σ : Storage) (lhs rhs : List Char) : Except Exn Int :=
  RpmEvr.cmp σ lhs rhs

/-! ## Notions used to state the properties -/

/-- The natural number that a string of decimal digits denotes. -/
def decimalValue (s : List Char) : Nat :=
  Nat.ofDigits 10 (s.reverse.map (fun c => c.toNat - 48))

/-- A segment as the specification describes it: non-empty, and entirely
digits or entirely letters. -/
def IsSegment (s : List Char) : Prop :=
  s ≠ [] ∧ ((∀ c ∈ s, isdigit c = true) ∨ (∀ c ∈ s, isalpha c = true))

instance (s : List Char) : Decidable (IsSegment s) := by
  unfold IsSegment
  infer_instance

/-- The value of a segment when `std::from_chars` accepts it. -/
def asNumber (s : List Char) : Option Int :=
  if (from_chars s 0).1 = Errc.ok then some (from_chars s 0).2 else none

/-- The comparison loop of `RpmVer::cmp_impl` read as a walk down the two
lists of segments that are left. -/
def cmpLists : List (List Char) → List (List Char) → Int
  | [], [] => 0
  | [], _ :: _ => -1
  | _ :: _, [] => 1
  | l :: ls, r :: rs =>
    match RpmVer.cmpSegment l r with
    | some x => x
    | none => cmpLists ls rs

/-- The result of `RpmVer::cmp_impl` on two labels, read off the markers
and the two lists of views as the loop finds them. -/
def labelOrder (σ : Storage) (a b : List Char) : Int :=
  if '~' ∈ a then -1 else if '~' ∈ b then 1
  else if '^' ∈ a then 1 else if '^' ∈ b then -1
  else cmpLists (Storage.found (σ.lhs a b) (RpmVer.segments a) 0)
    (Storage.found (σ.rhs a b) (RpmVer.segments b) 0)

/-- The result of `RpmEvr::cmp_impl` on two objects whose versions and
releases have no hyphen. -/
def evrOrder (σ : Storage) (self other : RpmEvr) : Int :=
  if self.epoch > other.epoch then 1
  else if self.epoch < other.epoch then -1
  else if labelOrder σ self.version other.version ≠ 0 then
    labelOrder σ self.version other.version
  else labelOrder σ self.release other.release

namespace Storage

/-- The storage in which every view still shows the characters of its
segment, as if the two temporaries were alive during the loop. -/
def intact : Storage where
  lhs version _ i j := ((RpmVer.segments version).getD i []).getD j ' '
  rhs _ other i j := ((RpmVer.segments other).getD i []).getD j ' '
  same _ _ _ := rfl

/-- The storage in which the views of `lhsSegments` show the bytes `l` and
those of `rhsSegments` the bytes `r`, except that a label compared with itself
shows the bytes `l` on both sides. -/
def ofBytes (l r : List Char → List Char → Nat → Nat → Char) : Storage where
  lhs version other i j := l version other i j
  rhs version other i j := if version = other then l version other i j else r version other i j
  same version i j := by simp

/-- A storage of the kind a small-string implementation of `std::string`
leaves behind: a label shorter than 16 bytes lay inside the string object and
its characters are still in place, a longer one lay in a buffer that has been
released and reused, and the views into it show the byte `l` on the side of
`lhsSegments` and the byte `r` on the side of `rhsSegments`. -/
def released (l r : Char) : Storage :=
  ofBytes
    (fun version _ i j =>
      if version.length < 16 then ((RpmVer.segments version).getD i []).getD j ' ' else l)
    (fun _ other i j =>
      if other.length < 16 then ((RpmVer.segments other).getD i []).getD j ' ' else r)

/-- As `released l r`, except that the views of `rhsSegments` into the label
`kept` still show its segments: the segments of `kept` lie beyond the bytes
at the start of its buffer that the release has overwritten. -/
def releasedBut (kept : List Char) (l r : Char) : Storage :=
  ofBytes
    (fun version _ i j =>
      if version.length < 16 then ((RpmVer.segments version).getD i []).getD j ' ' else l)
    (fun _ other i j =>
      if other.length < 16 ∨ other = kept then
        ((RpmVer.segments other).getD i []).getD j ' '
      else r)

/-- The loop of a comparison of `a` with `b` reads the characters of the two
labels: every view shows the segment it was cut from. -/
def Holds (σ : Storage) (a b : List Char) : Prop :=
  found (σ.lhs a b) (RpmVer.segments a) 0 = RpmVer.segments a ∧
  found (σ.rhs a b) (RpmVer.segments b) 0 = RpmVer.segments b

instance (σ : Storage) (a b : List Char) : Decidable (Holds σ a b) := by
  unfold Holds
  infer_instance

end Storage

end rpmcmplib


namespace rpmcmplib

/-! ## Searching for a character -/

theorem findFrom_single (c : Char) (s : List Char) (i : Nat) :
    findFrom [c] s i ≠ none ↔ c ∈ s := by
  induction s generalizing i with
  | nil => simp [findFrom]
  | cons d s ih =>
    unfold findFrom
    by_cases h : c = d
    · subst h; simp
    · have hp : ¬ ([c] <+: d :: s) := by
        intro hp
        rcases hp with ⟨t, ht⟩
        simp at ht
        exact h ht.1
      rw [if_neg hp, ih]
      simp [h]

theorem contains_single (c : Char) (s : List Char) :
    utils.contains s [c] = decide (c ∈ s) := by
  unfold utils.contains find
  by_cases h : c ∈ s
  · have := (findFrom_single c s 0).2 h
    simp [h, this]
  · have : findFrom [c] s 0 = none := by
      by_contra hne
      exact h ((findFrom_single c s 0).1 hne)
    simp [h, this]

theorem isValid_eq (label : List Char) :
    RpmVer.isValid label = if '-' ∈ label then hyphenMessage else [] := by
  have h := contains_single '-' label
  unfold utils.contains at h
  unfold RpmVer.isValid
  show (if (find label ['-'] != none) = true then hyphenMessage else []) = _
  rw [h]
  simp

theorem new_of_hyphen {label : List Char} (h : '-' ∈ label) :
    RpmVer.new label = Except.error (Exn.invalid_argument hyphenMessage) := by
  unfold RpmVer.new
  simp only [isValid_eq, if_pos h]
  rfl

theorem new_of_no_hyphen {label : List Char} (h : '-' ∉ label) :
    RpmVer.new label = Except.ok label := by
  unfold RpmVer.new
  simp only [isValid_eq, if_neg h]
  rfl

/-! ## The comparison loop -/

theorem vectorAt_drop {α : Type} (v : List α) (i : Nat) (x : α) (t : List α)
    (h : v.drop i = x :: t) : vectorAt v i = Except.ok x ∧ v.drop (i + 1) = t := by
  have hx : v[i]? = some x := by
    have := List.getElem?_drop (L := v) (i := i) (j := 0)
    rw [h] at this
    simpa using this.symm
  have ht : v.drop (i + 1) = t := by
    have := List.drop_drop 1 i v
    rw [h] at this
    simpa [Nat.add_comm] using this.symm
  exact ⟨by simp only [vectorAt, hx], ht⟩

theorem cmpLoop_eq (L R : List (List Char)) :
    ∀ (n i : Nat), i ≤ L.length → i ≤ R.length →
      n = min (L.length - i) (R.length - i) →
      RpmVer.cmpLoop L R n i = Except.ok (cmpLists (L.drop i) (R.drop i)) := by
  intro n
  induction n with
  | zero =>
    intro i hl hr hn
    have hcases : L.length = i ∨ R.length = i := by omega
    unfold RpmVer.cmpLoop
    rcases hcases with h | h
    · have hL : L.drop i = [] := List.drop_eq_nil_of_le (by omega)
      rw [hL]
      cases hR : R.drop i with
      | nil =>
        have : R.length ≤ i := by simpa using hR
        have : L.length = R.length := by omega
        simp [this, cmpLists]
      | cons r rs =>
        have : i < R.length := by
          by_contra hc
          have : R.drop i = [] := List.drop_eq_nil_of_le (by omega)
          simp [this] at hR
        have h1 : L.length ≠ R.length := by omega
        have h2 : ¬ L.length > R.length := by omega
        simp [h1, h2, cmpLists]
    · have hR : R.drop i = [] := List.drop_eq_nil_of_le (by omega)
      rw [hR]
      cases hL : L.drop i with
      | nil =>
        have : L.length ≤ i := by simpa using hL
        have : L.length = R.length := by omega
        simp [this, cmpLists]
      | cons l ls =>
        have : i < L.length := by
          by_contra hc
          have : L.drop i = [] := List.drop_eq_nil_of_le (by omega)
          simp [this] at hL
        have h1 : L.length ≠ R.length := by omega
        have h2 : L.length > R.length := by omega
        simp [h1, h2, cmpLists]
  | succ n ih =>
    intro i hl hr hn
    have hil : i < L.length := by omega
    have hir : i < R.length := by omega
    obtain ⟨l, ls, hL⟩ : ∃ l ls, L.drop i = l :: ls := by
      cases h : L.drop i with
      | nil =>
        have : L.length ≤ i := by simpa using h
        omega
      | cons l ls => exact ⟨l, ls, rfl⟩
    obtain ⟨r, rs, hR⟩ : ∃ r rs, R.drop i = r :: rs := by
      cases h : R.drop i with
      | nil =>
        have : R.length ≤ i := by simpa using h
        omega
      | cons r rs => exact ⟨r, rs, rfl⟩
    obtain ⟨hl1, hl2⟩ := vectorAt_drop L i l ls hL
    obtain ⟨hr1, hr2⟩ := vectorAt_drop R i r rs hR
    unfold RpmVer.cmpLoop
    rw [hl1, hr1, hL, hR]
    simp only [cmpLists]
    cases hseg : RpmVer.cmpSegment l r with
    | some x => rfl
    | none =>
      simp only []
      rw [ih (i + 1) (by omega) (by omega) (by omega), hl2, hr2]

theorem found_length (bytes : Nat → Nat → Char) (segs : List (List Char)) (i : Nat) :
    (Storage.found bytes segs i).length = segs.length := by
  induction segs generalizing i with
  | nil => rfl
  | cons seg rest ih => simp [Storage.found, ih]

theorem cmp_impl_no_marker (σ : Storage) {a b : List Char} (ha1 : '~' ∉ a) (hb1 : '~' ∉ b)
    (ha2 : '^' ∉ a) (hb2 : '^' ∉ b) :
    RpmVer.cmp_impl σ a b = Except.ok
      (cmpLists (Storage.found (σ.lhs a b) (RpmVer.segments a) 0)
        (Storage.found (σ.rhs a b) (RpmVer.segments b) 0)) := by
  unfold RpmVer.cmp_impl
  have e1 : "~".toList = ['~'] := rfl
  have e2 : "^".toList = ['^'] := rfl
  rw [e1, e2]
  simp only [contains_single, ha1, hb1, ha2, hb2, decide_False, Bool.false_eq_true, if_false]
  have := cmpLoop_eq (Storage.found (σ.lhs a b) (RpmVer.segments a) 0)
    (Storage.found (σ.rhs a b) (RpmVer.segments b) 0)
    (min (Storage.found (σ.lhs a b) (RpmVer.segments a) 0).length
      (Storage.found (σ.rhs a b) (RpmVer.segments b) 0).length) 0
    (Nat.zero_le _) (Nat.zero_le _) (by simp)
  simpa using this

theorem cmp_of_cmp_impl (σ : Storage) {a b : List Char} (ha : '-' ∉ a) (hb : '-' ∉ b) {x : Int}
    (h : RpmVer.cmp_impl σ a b = Except.ok x) (hx : x = -1 ∨ x = 0 ∨ x = 1) :
    RpmVer.cmp σ a b = Except.ok x := by
  unfold RpmVer.cmp
  rw [new_of_no_hyphen ha, new_of_no_hyphen hb]
  simp only [RpmVer.lt, RpmVer.eq, h, Except.map]
  rcases hx with rfl | rfl | rfl <;> rfl

/-! ## The order of two segments -/

theorem compare_values (a b : List Char) :
    compare a b = -1 ∨ compare a b = 0 ∨ compare a b = 1 := by
  induction a generalizing b with
  | nil => cases b <;> simp [compare]
  | cons x a ih =>
    cases b with
    | nil => simp [compare]
    | cons y b =>
      simp only [compare]
      split_ifs
      · simp
      · simp
      · exact ih b

theorem compare_neg_iff (a b : List Char) : compare a b < 0 ↔ List.lt a b := by
  induction a generalizing b with
  | nil =>
    cases b with
    | nil => simp [compare]; intro h; cases h
    | cons y b => simp [compare]; exact List.lt.nil _ _
  | cons x a ih =>
    cases b with
    | nil => simp [compare]; intro h; cases h
    | cons y b =>
      simp only [compare]
      split_ifs with h1 h2
      · simp; exact List.lt.head _ _ h1
      · simp
        intro h
        cases h with
        | head _ _ h => exact h1 h
        | tail _ h _ => exact h h2
      · rw [ih b]
        constructor
        · intro h; exact List.lt.tail h1 h2 h
        · intro h
          cases h with
          | head _ _ h => exact absurd h h1
          | tail _ _ h => exact h

theorem compare_zero_iff (a b : List Char) : compare a b = 0 ↔ a = b := by
  induction a generalizing b with
  | nil => cases b <;> simp [compare]
  | cons x a ih =>
    cases b with
    | nil => simp [compare]
    | cons y b =>
      simp only [compare]
      split_ifs with h1 h2
      · simp; intro h; exact absurd h (ne_of_lt h1)
      · simp; intro h; exact absurd h.symm (ne_of_lt h2)
      · rw [ih b]
        have : x = y := le_antisymm (not_lt.1 h2) (not_lt.1 h1)
        simp [this]

theorem compare_swap (a b : List Char) : compare b a = -compare a b := by
  induction a generalizing b with
  | nil => cases b <;> simp [compare]
  | cons x a ih =>
    cases b with
    | nil => simp [compare]
    | cons y b =>
      simp only [compare]
      split_ifs with h1 h2 h3
      · exact absurd h1 (lt_asymm h2)
      · simp
      · simp
      · exact ih b

theorem list_lt_trans {a b c : List Char} (h1 : List.lt a b) (h2 : List.lt b c) :
    List.lt a c :=
  List.lt_trans (fun h h' => lt_trans h h')
    (fun h h' => not_lt.2 (le_trans (not_lt.1 h') (not_lt.1 h))) h1 h2

theorem list_lt_irrefl (a : List Char) : ¬ List.lt a a :=
  List.lt_irrefl (fun x => lt_irrefl x) a

theorem cmpSegment_eq (l r : List Char) :
    RpmVer.cmpSegment l r =
      match asNumber l, asNumber r with
      | some x, some y => if x > y then some 1 else if x < y then some (-1) else none
      | none, none => if l ≠ r then (if compare l r < 0 then some (-1) else some 1) else none
      | some _, none => some 1
      | none, some _ => some (-1) := by
  unfold RpmVer.cmpSegment asNumber
  by_cases hl : (from_chars l 0).1 = Errc.ok
  · by_cases hr : (from_chars r 0).1 = Errc.ok <;> simp [hl, hr]
  · by_cases hr : (from_chars r 0).1 = Errc.ok <;> simp [hl, hr]

theorem cmpSegment_values {l r : List Char} {x : Int} (h : RpmVer.cmpSegment l r = some x) :
    x = -1 ∨ x = 1 := by
  rw [cmpSegment_eq] at h
  cases hl : asNumber l <;> cases hr : asNumber r <;> simp only [hl, hr] at h
  · split_ifs at h <;> simp_all
  · simp_all
  · simp_all
  · split_ifs at h <;> simp_all

theorem cmpSegment_self (a : List Char) : RpmVer.cmpSegment a a = none := by
  rw [cmpSegment_eq]
  cases asNumber a <;> simp

theorem cmpSegment_swap (a b : List Char) :
    RpmVer.cmpSegment b a = (RpmVer.cmpSegment a b).map (fun x => -x) := by
  rw [cmpSegment_eq, cmpSegment_eq]
  cases ha : asNumber a <;> cases hb : asNumber b <;> simp only []
  · by_cases hab : a = b
    · subst hab; simp
    · have hba : b ≠ a := fun h => hab h.symm
      have hne : compare a b ≠ 0 := fun h => hab ((compare_zero_iff a b).1 h)
      have hs := compare_swap a b
      rcases compare_values a b with h | h | h
      · simp [hab, hba, hs, h]
      · exact absurd h hne
      · simp [hab, hba, hs, h]
  · simp
  · simp
  · rename_i x y
    rcases lt_trichotomy x y with h | h | h
    · have h1 : ¬ y < x := by omega
      simp [h, h1]
    · subst h; simp
    · have h1 : ¬ x < y := by omega
      simp [h, h1]

theorem cmpSegment_none_left {a b : List Char} (h : RpmVer.cmpSegment a b = none)
    (c : List Char) : RpmVer.cmpSegment a c = RpmVer.cmpSegment b c := by
  rw [cmpSegment_eq] at h
  rw [cmpSegment_eq, cmpSegment_eq]
  cases ha : asNumber a <;> cases hb : asNumber b <;> simp only [ha, hb] at h
  · have hab : a = b := by
      by_contra hne
      simp only [ne_eq, hne, not_false_eq_true, if_true] at h
      split_ifs at h
    subst hab
    simp [ha]
  · simp at h
  · simp at h
  · rename_i x y
    have hxy : x = y := by
      split_ifs at h
      omega
    subst hxy
    cases asNumber c <;> simp

theorem cmpSegment_none_right {b c : List Char} (h : RpmVer.cmpSegment b c = none)
    (a : List Char) : RpmVer.cmpSegment a c = RpmVer.cmpSegment a b := by
  rw [cmpSegment_swap c a, cmpSegment_swap b a]
  have h' : RpmVer.cmpSegment c b = none := by
    rw [cmpSegment_swap b c, h]; rfl
  rw [cmpSegment_none_left h' a]

theorem cmpSegment_trans {a b c : List Char} (h1 : RpmVer.cmpSegment a b = some (-1))
    (h2 : RpmVer.cmpSegment b c = some (-1)) : RpmVer.cmpSegment a c = some (-1) := by
  rw [cmpSegment_eq] at h1 h2 ⊢
  cases ha : asNumber a <;> cases hb : asNumber b <;> cases hc : asNumber c <;>
    simp only [ha, hb, hc] at h1 h2 ⊢
  · by_cases hab : a = b
    · simp [hab] at h1
    by_cases hbc : b = c
    · simp [hbc] at h2
    simp only [ne_eq, hab, hbc, not_false_eq_true, if_true] at h1 h2
    have l1 : List.lt a b := by
      rw [← compare_neg_iff]; by_contra hn; simp [hn] at h1
    have l2 : List.lt b c := by
      rw [← compare_neg_iff]; by_contra hn; simp [hn] at h2
    have l3 := list_lt_trans l1 l2
    have hac : a ≠ c := by
      intro h; subst h; exact list_lt_irrefl a l3
    simp [hac, (compare_neg_iff a c).2 l3]
  · simp at h2
  · simp at h1
  · simp at h1
  · simp at h2
  · rename_i x y z
    have hxy : x < y := by
      by_contra hn
      split_ifs at h1
      simp at h1
    have hyz : y < z := by
      by_contra hn
      split_ifs at h2
      simp at h2
    have h3 : ¬ x > z := by omega
    have h4 : x < z := by omega
    simp [h3, h4]

/-! ## The order of two lists of segments -/

theorem cmpLists_values (A B : List (List Char)) :
    cmpLists A B = -1 ∨ cmpLists A B = 0 ∨ cmpLists A B = 1 := by
  induction A generalizing B with
  | nil => cases B <;> simp [cmpLists]
  | cons a A ih =>
    cases B with
    | nil => simp [cmpLists]
    | cons b B =>
      simp only [cmpLists]
      cases h : RpmVer.cmpSegment a b with
      | none => exact ih B
      | some x =>
        rcases cmpSegment_values h with rfl | rfl <;> simp

theorem cmpLists_self (A : List (List Char)) : cmpLists A A = 0 := by
  induction A with
  | nil => rfl
  | cons a A ih => simp [cmpLists, cmpSegment_self, ih]

theorem cmpLists_swap (A B : List (List Char)) : cmpLists B A = -cmpLists A B := by
  induction A generalizing B with
  | nil => cases B <;> simp [cmpLists]
  | cons a A ih =>
    cases B with
    | nil => simp [cmpLists]
    | cons b B =>
      simp only [cmpLists]
      rw [cmpSegment_swap a b]
      cases h : RpmVer.cmpSegment a b with
      | none => exact ih B
      | some x => rfl

theorem cmpLists_trans (A B C : List (List Char)) (h1 : cmpLists A B ≤ 0)
    (h2 : cmpLists B C ≤ 0) : cmpLists A C ≤ 0 := by
  induction A generalizing B C with
  | nil => cases C <;> simp [cmpLists]
  | cons a A ih =>
    cases B with
    | nil => simp [cmpLists] at h1
    | cons b B =>
      cases C with
      | nil => simp [cmpLists] at h2
      | cons c C =>
        simp only [cmpLists] at h1 h2 ⊢
        cases hab : RpmVer.cmpSegment a b with
        | none =>
          rw [hab] at h1
          rw [cmpSegment_none_left hab c]
          cases hbc : RpmVer.cmpSegment b c with
          | none =>
            rw [hbc] at h2
            exact ih B C h1 h2
          | some y =>
            rw [hbc] at h2
            exact h2
        | some x =>
          rw [hab] at h1
          have hx : x = -1 := by
            rcases cmpSegment_values hab with h | h
            · exact h
            · subst h; simp at h1
          subst hx
          cases hbc : RpmVer.cmpSegment b c with
          | none =>
            rw [cmpSegment_none_right hbc a, hab]
            simp
          | some y =>
            rw [hbc] at h2
            have hy : y = -1 := by
              rcases cmpSegment_values hbc with h | h
              · exact h
              · subst h; simp at h2
            subst hy
            rw [cmpSegment_trans hab hbc]
            simp

/-! ## The comparison as a function of the two labels -/

/-- The result of `RpmVer::cmp_impl` on two labels. -/
theorem cmp_impl_eq (σ : Storage) (a b : List Char) :
    RpmVer.cmp_impl σ a b = Except.ok
      (if '~' ∈ a then -1 else if '~' ∈ b then 1
       else if '^' ∈ a then 1 else if '^' ∈ b then -1
       else cmpLists (Storage.found (σ.lhs a b) (RpmVer.segments a) 0)
         (Storage.found (σ.rhs a b) (RpmVer.segments b) 0)) := by
  by_cases h1 : '~' ∈ a
  · have e1 : "~".toList = ['~'] := rfl
    simp [RpmVer.cmp_impl, e1, contains_single, h1]
  by_cases h2 : '~' ∈ b
  · have e1 : "~".toList = ['~'] := rfl
    simp [RpmVer.cmp_impl, e1, contains_single, h1, h2]
  by_cases h3 : '^' ∈ a
  · have e1 : "~".toList = ['~'] := rfl
    have e2 : "^".toList = ['^'] := rfl
    simp [RpmVer.cmp_impl, e1, e2, contains_single, h1, h2, h3]
  by_cases h4 : '^' ∈ b
  · have e1 : "~".toList = ['~'] := rfl
    have e2 : "^".toList = ['^'] := rfl
    simp [RpmVer.cmp_impl, e1, e2, contains_single, h1, h2, h3, h4]
  rw [cmp_impl_no_marker σ h1 h2 h3 h4]
  simp [h1, h2, h3, h4]

/-- The result of `RpmVer::cmp` on two labels without a hyphen. -/
theorem cmp_eq (σ : Storage) {a b : List Char} (ha : '-' ∉ a) (hb : '-' ∉ b) :
    VersionCompare σ a b = Except.ok
      (if '~' ∈ a then -1 else if '~' ∈ b then 1
       else if '^' ∈ a then 1 else if '^' ∈ b then -1
       else cmpLists (Storage.found (σ.lhs a b) (RpmVer.segments a) 0)
         (Storage.found (σ.rhs a b) (RpmVer.segments b) 0)) := by
  unfold VersionCompare
  apply cmp_of_cmp_impl σ ha hb (cmp_impl_eq σ a b)
  split_ifs
  · simp
  · simp
  · simp
  · simp
  · exact cmpLists_values _ _

/-- The result of `RpmVer::cmp` on two labels without a hyphen when the loop
reads the characters of the labels. -/
theorem cmp_eq_of_holds {σ : Storage} {a b : List Char} (ha : '-' ∉ a) (hb : '-' ∉ b)
    (h : σ.Holds a b) :
    VersionCompare σ a b = Except.ok
      (if '~' ∈ a then -1 else if '~' ∈ b then 1
       else if '^' ∈ a then 1 else if '^' ∈ b then -1
       else cmpLists (RpmVer.segments a) (RpmVer.segments b)) := by
  rw [cmp_eq σ ha hb, h.1, h.2]

theorem cmp_of_hyphen (σ : Storage) {a b : List Char} (h : '-' ∈ a ∨ '-' ∈ b) :
    VersionCompare σ a b = Except.error (Exn.invalid_argument hyphenMessage) := by
  unfold VersionCompare RpmVer.cmp
  by_cases ha : '-' ∈ a
  · rw [new_of_hyphen ha]
  · have hb : '-' ∈ b := h.resolve_left ha
    rw [new_of_no_hyphen ha, new_of_hyphen hb]

/-! ## Labels that are one run of digits or of letters -/

theorem segmentsLoop_run (p : Char → Bool)
    (hp1 : ∀ c, p c = true → (isdigit c || isalpha c) = true)
    (hp2 : ∀ c b, p c = true → p b = true →
      ((isdigit c && isdigit b) || (isalpha c && isalpha b)) = true) :
    ∀ cs : List Char, (∀ c ∈ cs, p c = true) →
      ∀ (vec : List (List Char)) (seg : List Char), (∀ c ∈ seg, p c = true) →
        RpmVer.segmentsLoop cs vec seg = if seg ++ cs = [] then vec else vec ++ [seg ++ cs] := by
  intro cs
  induction cs with
  | nil =>
    intro _ vec seg _
    cases seg <;> simp [RpmVer.segmentsLoop]
  | cons c cs ih =>
    intro hcs vec seg hseg
    have hc : p c = true := hcs c (List.mem_cons_self _ _)
    have hcs' : ∀ x ∈ cs, p x = true := fun x hx => hcs x (List.mem_cons_of_mem _ hx)
    unfold RpmVer.segmentsLoop
    rw [if_pos (hp1 c hc)]
    cases hlast : seg.getLast? with
    | none =>
      have hnil : seg = [] := List.getLast?_eq_none_iff.1 hlast
      subst hnil
      simp only []
      rw [ih hcs' vec [c] (by intro x hx; simp at hx; subst hx; exact hc)]
      simp
    | some back =>
      have hmem : back ∈ seg := List.mem_of_getLast?_eq_some hlast
      simp only []
      rw [if_pos (hp2 c back hc (hseg back hmem))]
      rw [ih hcs' vec (seg ++ [c]) (by
        intro x hx
        rcases List.mem_append.1 hx with h | h
        · exact hseg x h
        · simp at h; subst h; exact hc)]
      simp

theorem isdigit_class (c : Char) (h : isdigit c = true) :
    (isdigit c || isalpha c) = true := by
  simp [h]

theorem isalpha_class (c : Char) (h : isalpha c = true) :
    (isdigit c || isalpha c) = true := by
  simp [h]

theorem segments_digits {d : List Char} (hne : d ≠ []) (hd : ∀ c ∈ d, isdigit c = true) :
    RpmVer.segments d = [d] := by
  unfold RpmVer.segments
  rw [segmentsLoop_run isdigit isdigit_class (fun c b hc hb => by simp [hc, hb]) d hd [] []
    (by simp)]
  simp [hne]

theorem segments_letters {l : List Char} (hne : l ≠ []) (hl : ∀ c ∈ l, isalpha c = true) :
    RpmVer.segments l = [l] := by
  unfold RpmVer.segments
  rw [segmentsLoop_run isalpha isalpha_class (fun c b hc hb => by simp [hc, hb]) l hl [] []
    (by simp)]
  simp [hne]

theorem not_mem_of_digits {d : List Char} (hd : ∀ c ∈ d, isdigit c = true) (x : Char)
    (hx : isdigit x = false) : x ∉ d := by
  intro h
  rw [hd x h] at hx
  exact absurd hx (by simp)

theorem not_mem_of_letters {l : List Char} (hl : ∀ c ∈ l, isalpha c = true) (x : Char)
    (hx : isalpha x = false) : x ∉ l := by
  intro h
  rw [hl x h] at hx
  exact absurd hx (by simp)

/-! ## Reading a number -/

theorem digitsValue_nil (acc : Nat) : digitsValue acc [] = acc := rfl

theorem digitsValue_cons (acc : Nat) (c : Char) (cs : List Char) :
    digitsValue acc (c :: cs) = digitsValue (10 * acc + (c.toNat - 48)) cs := rfl

theorem digitsValue_eq (acc : Nat) (s : List Char) :
    digitsValue acc s = acc * 10 ^ s.length + decimalValue s := by
  induction s generalizing acc with
  | nil => simp [digitsValue_nil, decimalValue]
  | cons c s ih =>
    rw [digitsValue_cons, ih]
    have h : decimalValue (c :: s) = decimalValue s + 10 ^ s.length * (c.toNat - 48) := by
      simp [decimalValue, Nat.ofDigits_append]
    rw [h, List.length_cons, pow_succ]
    ring

theorem digitsValue_zero (s : List Char) : digitsValue 0 s = decimalValue s := by
  simp [digitsValue_eq]

theorem from_chars_digits {d : List Char} (hne : d ≠ []) (hd : ∀ c ∈ d, isdigit c = true) :
    from_chars d 0 =
      if (decimalValue d : Int) ≤ LLONG_MAX then (Errc.ok, (decimalValue d : Int))
      else (Errc.result_out_of_range, 0) := by
  obtain ⟨c, t, rfl⟩ := List.exists_cons_of_ne_nil hne
  have hc : c ≠ '-' := by
    intro h
    have := hd c (List.mem_cons_self _ _)
    rw [h] at this
    exact absurd this (by decide)
  have htake : List.takeWhile isdigit (c :: t) = c :: t :=
    List.takeWhile_eq_self_iff.2 hd
  have hmin : LLONG_MIN ≤ (decimalValue (c :: t) : Int) := by
    have : (0 : Int) ≤ (decimalValue (c :: t) : Int) := Int.natCast_nonneg _
    have h0 : LLONG_MIN ≤ 0 := by decide
    omega
  unfold from_chars
  simp only [List.head?_cons, beq_iff_eq, Option.some.injEq, hc, if_false, htake,
    digitsValue_zero, hmin, true_and]
  simp

theorem from_chars_letters {l : List Char} (hne : l ≠ []) (hl : ∀ c ∈ l, isalpha c = true) :
    from_chars l 0 = (Errc.invalid_argument, 0) := by
  obtain ⟨c, t, rfl⟩ := List.exists_cons_of_ne_nil hne
  have hca : isalpha c = true := hl c (List.mem_cons_self _ _)
  have hc : c ≠ '-' := by
    intro h
    rw [h] at hca
    exact absurd hca (by decide)
  have hcd : isdigit c = false := by
    unfold isalpha at hca
    unfold isdigit
    simp only [Bool.or_eq_true, Bool.and_eq_true, decide_eq_true_eq] at hca
    simp only [Bool.and_eq_false_imp, decide_eq_true_eq, decide_eq_false_iff_not]
    omega
  have htake : List.takeWhile isdigit (c :: t) = [] := by
    simp [List.takeWhile, hcd]
  unfold from_chars
  simp only [List.head?_cons, beq_iff_eq, Option.some.injEq, hc, if_false, htake]
  simp

theorem asNumber_digits {d : List Char} (hne : d ≠ []) (hd : ∀ c ∈ d, isdigit c = true) :
    asNumber d = if (decimalValue d : Int) ≤ LLONG_MAX then some (decimalValue d : Int)
      else none := by
  unfold asNumber
  rw [from_chars_digits hne hd]
  split_ifs <;> simp_all

theorem asNumber_letters {l : List Char} (hne : l ≠ []) (hl : ∀ c ∈ l, isalpha c = true) :
    asNumber l = none := by
  unfold asNumber
  rw [from_chars_letters hne hl]
  simp

/-! ## Properties of `VersionValidate` and `VersionCompare` -/

/-- C1, the code at a failing input: the labels `1~` and `2~` have no hyphen
and both contain `~`; `VersionCompare` answers `-1` in both directions, so it
is not antisymmetric there (`-1` is not `-(-1)`).  The marker checks read the
labels themselves, so this is so whatever the released storage holds. -/
theorem VersionCompare_both_tilde_both_less (σ : Storage) :
    '-' ∉ "1~".toList ∧ '-' ∉ "2~".toList ∧
      VersionCompare σ "1~".toList "2~".toList = Except.ok (-1) ∧
      VersionCompare σ "2~".toList "1~".toList = Except.ok (-1) :=
  ⟨by decide, by decide, rfl, rfl⟩

/-- C2, the code at a failing input: the label `1~` has no hyphen and
`VersionCompare` of it with itself is `-1`, not `0`; for the label `1^` it is
`1`, whatever the released storage holds. -/
theorem VersionCompare_self_with_marker (σ : Storage) :
    '-' ∉ "1~".toList ∧ VersionCompare σ "1~".toList "1~".toList = Except.ok (-1) ∧
      '-' ∉ "1^".toList ∧ VersionCompare σ "1^".toList "1^".toList = Except.ok 1 :=
  ⟨by decide, rfl, by decide, rfl⟩

/-- C3, the code at failing inputs: the labels `1000000`,
`................1000001` and `0000000000000002` have no hyphen, and so have
`B`, `9223372036854775808` and `A`; for some content of the released storage
`VersionCompare` answers `-1` for the first against the second, `-1` for the
second against the third and `1` for the first against the third, in both
triples.  In that storage the labels shorter than 16 bytes are still in
place, and so are the digits `1000001`, which lie beyond the first 16 bytes
of their buffer, as long as they stand on the right; every other view into a
longer label shows bytes that are no digits, smaller than a letter on the
left and larger than `B` on the right. -/
theorem VersionCompare_not_transitive :
    ('-' ∉ "1000000".toList ∧ '-' ∉ "................1000001".toList ∧
        '-' ∉ "0000000000000002".toList ∧ '-' ∉ "B".toList ∧
        '-' ∉ "9223372036854775808".toList ∧ '-' ∉ "A".toList) ∧
      ∃ σ : Storage,
        (VersionCompare σ "1000000".toList "................1000001".toList = Except.ok (-1) ∧
          VersionCompare σ "................1000001".toList "0000000000000002".toList =
            Except.ok (-1) ∧
          VersionCompare σ "1000000".toList "0000000000000002".toList = Except.ok 1) ∧
        (VersionCompare σ "B".toList "9223372036854775808".toList = Except.ok (-1) ∧
          VersionCompare σ "9223372036854775808".toList "A".toList = Except.ok (-1) ∧
          VersionCompare σ "B".toList "A".toList = Except.ok 1) :=
  ⟨⟨by decide, by decide, by decide, by decide, by decide, by decide⟩,
    Storage.releasedBut "................1000001".toList ' ' 'x',
    ⟨rfl, rfl, rfl⟩, ⟨rfl, rfl, rfl⟩⟩

/-- C4: `VersionCompare lhs rhs` fails exactly when `lhs` or `rhs` contains
a hyphen; a failure is the `invalid_argument` with the text
"Label can't have hyphen symbol!"; a result is `-1`, `0` or `1`.  The sizes
of the two vectors and of the views do not depend on the released storage, so
this holds whatever it holds. -/
theorem VersionCompare_fails_iff (σ : Storage) (lhs rhs : List Char) :
    ((∃ e, VersionCompare σ lhs rhs = Except.error e) ↔ ('-' ∈ lhs ∨ '-' ∈ rhs)) ∧
      (∀ e, VersionCompare σ lhs rhs = Except.error e →
        e = Exn.invalid_argument "Label can't have hyphen symbol!".toList) ∧
      (∀ x, VersionCompare σ lhs rhs = Except.ok x → x = -1 ∨ x = 0 ∨ x = 1) := by
  by_cases h : '-' ∈ lhs ∨ '-' ∈ rhs
  · have hv := cmp_of_hyphen σ h
    refine ⟨⟨fun _ => h, fun _ => ⟨_, hv⟩⟩, ?_, ?_⟩
    · intro e he
      rw [hv] at he
      exact (Except.error.inj he).symm
    · intro x hx
      rw [hv] at hx
      cases hx
  · have ha : '-' ∉ lhs := fun h' => h (Or.inl h')
    have hb : '-' ∉ rhs := fun h' => h (Or.inr h')
    have hv := cmp_eq σ ha hb
    refine ⟨⟨?_, fun h' => absurd h' h⟩, ?_, ?_⟩
    · rintro ⟨e, he⟩
      rw [hv] at he
      cases he
    · intro e he
      rw [hv] at he
      cases he
    · intro x hx
      rw [hv] at hx
      have hx' := Except.ok.inj hx
      subst hx'
      split_ifs
      · simp
      · simp
      · simp
      · simp
      · exact cmpLists_values _ _

/-- C5: `VersionValidate label` is "Label can't have hyphen symbol!" when
`label` contains `-`, and the empty string otherwise. -/
theorem VersionValidate_eq (label : List Char) :
    VersionValidate label =
      if '-' ∈ label then "Label can't have hyphen symbol!".toList else "".toList :=
  isValid_eq label

/-- C6, the tilde rule: for labels without a hyphen of which exactly one
contains `~`, `VersionCompare a b` is `-1` when it is `a` and `1` when it is
`b`, whatever else the labels contain and whatever the released storage
holds. -/
theorem VersionCompare_tilde (σ : Storage) (a b : List Char) (ha : '-' ∉ a) (hb : '-' ∉ b)
    (h : ('~' ∈ a ∧ '~' ∉ b) ∨ ('~' ∈ b ∧ '~' ∉ a)) :
    VersionCompare σ a b = Except.ok (if '~' ∈ a then -1 else 1) := by
  rw [cmp_eq σ ha hb]
  rcases h with ⟨h1, _⟩ | ⟨h1, h2⟩
  · simp [h1]
  · simp [h1, h2]

/-- C6 at `1.1~201601^` against `1.1`, in both directions. -/
theorem VersionCompare_tilde_witness :
    VersionCompare Storage.intact "1.1~201601^".toList "1.1".toList = Except.ok (-1) ∧
      VersionCompare Storage.intact "1.1".toList "1.1~201601^".toList = Except.ok 1 :=
  ⟨VersionCompare_tilde Storage.intact "1.1~201601^".toList "1.1".toList (by decide)
      (by decide) (Or.inl ⟨by decide, by decide⟩),
    VersionCompare_tilde Storage.intact "1.1".toList "1.1~201601^".toList (by decide)
      (by decide) (Or.inr ⟨by decide, by decide⟩)⟩

/-- C7, the caret rule: for labels without a hyphen and without `~` of which
exactly one contains `^`, `VersionCompare a b` is `1` when it is `a` and `-1`
when it is `b`, whatever the released storage holds. -/
theorem VersionCompare_caret (σ : Storage) (a b : List Char) (ha : '-' ∉ a) (hb : '-' ∉ b)
    (ha1 : '~' ∉ a) (hb1 : '~' ∉ b) (h : ('^' ∈ a ∧ '^' ∉ b) ∨ ('^' ∈ b ∧ '^' ∉ a)) :
    VersionCompare σ a b = Except.ok (if '^' ∈ a then 1 else -1) := by
  rw [cmp_eq σ ha hb]
  rcases h with ⟨h1, _⟩ | ⟨h1, h2⟩
  · simp [ha1, hb1, h1]
  · simp [ha1, hb1, h1, h2]

/-- C7 at `1.1^201601` against `1.1`, in both directions. -/
theorem VersionCompare_caret_witness :
    VersionCompare Storage.intact "1.1^201601".toList "1.1".toList = Except.ok 1 ∧
      VersionCompare Storage.intact "1.1".toList "1.1^201601".toList = Except.ok (-1) :=
  ⟨VersionCompare_caret Storage.intact "1.1^201601".toList "1.1".toList (by decide)
      (by decide) (by decide) (by decide) (Or.inl ⟨by decide, by decide⟩),
    VersionCompare_caret Storage.intact "1.1".toList "1.1^201601".toList (by decide)
      (by decide) (by decide) (by decide) (Or.inr ⟨by decide, by decide⟩)⟩

/-! ## Labels that are one number or one word -/

theorem llong_max_of_le {n : Nat} (h : n ≤ 2 ^ 63 - 1) : (n : Int) ≤ LLONG_MAX := by
  unfold LLONG_MAX
  omega

/-- C10, the code at a failing input: `aaaaaaaaaaaaaaaaa` and
`baaaaaaaaaaaaaaaa` are non-empty strings of 17 letters, the first is before
the second in the lexicographic order, and for some content of the released
storage, the same behind the views of both sides, `VersionCompare` answers
`0` instead of `-1`. -/
theorem VersionCompare_letters_released :
    "aaaaaaaaaaaaaaaaa".toList ≠ [] ∧ "baaaaaaaaaaaaaaaa".toList ≠ [] ∧
      (∀ c ∈ "aaaaaaaaaaaaaaaaa".toList, isalpha c = true) ∧
      (∀ c ∈ "baaaaaaaaaaaaaaaa".toList, isalpha c = true) ∧
      List.lt "aaaaaaaaaaaaaaaaa".toList "baaaaaaaaaaaaaaaa".toList ∧
      ∃ σ : Storage,
        VersionCompare σ "aaaaaaaaaaaaaaaaa".toList "baaaaaaaaaaaaaaaa".toList = Except.ok 0 :=
  ⟨by decide, by decide, by decide, by decide, List.lt.head _ _ (by decide),
    Storage.released 'x' 'x', rfl⟩

/-! ## The segments of a label -/

theorem isdigit_not_isalpha {c : Char} (h : isdigit c = true) : isalpha c = false := by
  unfold isdigit at h
  unfold isalpha
  simp only [Bool.and_eq_true, decide_eq_true_eq] at h
  simp only [Bool.or_eq_false_iff, Bool.and_eq_false_imp, decide_eq_true_eq,
    decide_eq_false_iff_not]
  omega

theorem segmentsLoop_vec (cs : List Char) :
    ∀ (vec : List (List Char)) (seg : List Char),
      RpmVer.segmentsLoop cs vec seg = vec ++ RpmVer.segmentsLoop cs [] seg := by
  induction cs with
  | nil =>
    intro vec seg
    cases seg <;> simp [RpmVer.segmentsLoop]
  | cons c cs ih =>
    intro vec seg
    rw [RpmVer.segmentsLoop, RpmVer.segmentsLoop]
    split_ifs with h1 h2
    · cases hlast : seg.getLast? with
      | none => exact ih vec [c]
      | some back =>
        simp only []
        split_ifs with h3
        · exact ih vec (seg ++ [c])
        · rw [ih (vec ++ [seg]) [c], ih ([] ++ [seg]) [c]]
          simp
    · rw [ih (vec ++ [seg]) [], ih ([] ++ [seg]) []]
      simp
    · exact ih vec seg

theorem segmentsLoop_sep {sep : Char} (hsep : (isdigit sep || isalpha sep) = false)
    (xs ys : List Char) :
    ∀ seg : List Char, RpmVer.segmentsLoop (xs ++ sep :: ys) [] seg =
      RpmVer.segmentsLoop xs [] seg ++ RpmVer.segmentsLoop ys [] [] := by
  induction xs with
  | nil =>
    intro seg
    rw [List.nil_append, RpmVer.segmentsLoop, RpmVer.segmentsLoop]
    simp only [hsep, Bool.false_eq_true, if_false]
    cases seg with
    | nil => simp
    | cons a seg =>
      simp only [List.isEmpty_cons, Bool.not_false, if_true]
      rw [segmentsLoop_vec]
  | cons c xs ih =>
    intro seg
    rw [List.cons_append, RpmVer.segmentsLoop, RpmVer.segmentsLoop]
    split_ifs with h1 h2
    · cases hlast : seg.getLast? with
      | none => exact ih [c]
      | some back =>
        simp only []
        split_ifs with h3
        · exact ih (seg ++ [c])
        · rw [segmentsLoop_vec, ih [c], segmentsLoop_vec xs ([] ++ [seg]) [c]]
          simp
    · rw [segmentsLoop_vec, ih [], segmentsLoop_vec xs ([] ++ [seg]) []]
      simp
    · exact ih seg

theorem segments_append_sep {sep : Char} (hsep : (isdigit sep || isalpha sep) = false)
    (xs ys : List Char) :
    RpmVer.segments (xs ++ sep :: ys) = RpmVer.segments xs ++ RpmVer.segments ys :=
  segmentsLoop_sep hsep xs ys []

theorem segmentsLoop_join (cs : List Char) :
    ∀ (vec : List (List Char)) (seg : List Char),
      (RpmVer.segmentsLoop cs vec seg).flatten =
        vec.flatten ++ seg ++ cs.filter (fun c => isdigit c || isalpha c) := by
  induction cs with
  | nil =>
    intro vec seg
    cases seg <;> simp [RpmVer.segmentsLoop]
  | cons c cs ih =>
    intro vec seg
    rw [RpmVer.segmentsLoop]
    split_ifs with h1 h2
    · rw [List.filter_cons_of_pos (p := fun c => isdigit c || isalpha c) h1]
      cases hlast : seg.getLast? with
      | none =>
        have hnil : seg = [] := List.getLast?_eq_none_iff.1 hlast
        subst hnil
        simp only []
        rw [ih]
        simp
      | some back =>
        simp only []
        split_ifs with h3
        · rw [ih]
          simp
        · rw [ih]
          simp
    · rw [List.filter_cons_of_neg (p := fun c => isdigit c || isalpha c) h1, ih]
      simp
    · rw [List.filter_cons_of_neg (p := fun c => isdigit c || isalpha c) h1, ih]

theorem segments_ne_nil {s : List Char} (h : ∃ c ∈ s, isdigit c = true ∨ isalpha c = true) :
    RpmVer.segments s ≠ [] := by
  intro hnil
  have hj := segmentsLoop_join s [] []
  unfold RpmVer.segments at hnil
  rw [hnil] at hj
  obtain ⟨c, hc, hcl⟩ := h
  have hmem : c ∈ s.filter (fun c => isdigit c || isalpha c) := by
    rw [List.mem_filter]
    exact ⟨hc, by simpa using hcl⟩
  simp at hj
  have := hj c hc
  rcases hcl with h1 | h1
  · rw [h1] at this
    exact absurd this.1 (by simp)
  · rw [h1] at this
    exact absurd this.2 (by simp)

theorem isSegment_single {c : Char} (h : (isdigit c || isalpha c) = true) : IsSegment [c] := by
  refine ⟨by simp, ?_⟩
  rcases Bool.or_eq_true _ _ ▸ h with h1 | h1
  · left
    intro x hx
    simp at hx
    subst hx
    exact h1
  · right
    intro x hx
    simp at hx
    subst hx
    exact h1

theorem isSegment_snoc {seg : List Char} {c back : Char} (hseg : IsSegment seg)
    (hback : back ∈ seg)
    (h : ((isdigit c && isdigit back) || (isalpha c && isalpha back)) = true) :
    IsSegment (seg ++ [c]) := by
  refine ⟨by simp, ?_⟩
  simp only [Bool.or_eq_true, Bool.and_eq_true] at h
  rcases hseg.2 with hd | hl
  · left
    have hbd := hd back hback
    have hc : isdigit c = true := by
      rcases h with h | h
      · exact h.1
      · rw [isdigit_not_isalpha hbd] at h
        exact absurd h.2 (by simp)
    intro x hx
    rcases List.mem_append.1 hx with hx | hx
    · exact hd x hx
    · simp at hx
      subst hx
      exact hc
  · right
    have hbl := hl back hback
    have hc : isalpha c = true := by
      rcases h with h | h
      · have := isdigit_not_isalpha h.2
        rw [hbl] at this
        exact absurd this (by simp)
      · exact h.1
    intro x hx
    rcases List.mem_append.1 hx with hx | hx
    · exact hl x hx
    · simp at hx
      subst hx
      exact hc

theorem segmentsLoop_isSegment (cs : List Char) :
    ∀ (vec : List (List Char)) (seg : List Char), (∀ s ∈ vec, IsSegment s) →
      (seg = [] ∨ IsSegment seg) → ∀ s ∈ RpmVer.segmentsLoop cs vec seg, IsSegment s := by
  induction cs with
  | nil =>
    intro vec seg hvec hseg s hs
    rw [RpmVer.segmentsLoop] at hs
    cases seg with
    | nil => exact hvec s (by simpa using hs)
    | cons a seg =>
      simp only [List.isEmpty_cons, Bool.not_false, if_true, List.mem_append,
        List.mem_singleton] at hs
      rcases hs with hs | hs
      · exact hvec s hs
      · rw [hs]
        exact hseg.resolve_left (by simp)
  | cons c cs ih =>
    intro vec seg hvec hseg
    have hpush : seg ≠ [] → ∀ s ∈ vec ++ [seg], IsSegment s := by
      intro hne s hs
      rcases List.mem_append.1 hs with hs | hs
      · exact hvec s hs
      · simp at hs
        rw [hs]
        exact hseg.resolve_left hne
    rw [RpmVer.segmentsLoop]
    split_ifs with h1 h2
    · cases hlast : seg.getLast? with
      | none => exact ih vec [c] hvec (Or.inr (isSegment_single h1))
      | some back =>
        have hmem : back ∈ seg := List.mem_of_getLast?_eq_some hlast
        have hne : seg ≠ [] := List.ne_nil_of_mem hmem
        simp only []
        split_ifs with h3
        · exact ih vec (seg ++ [c]) hvec
            (Or.inr (isSegment_snoc (hseg.resolve_left hne) hmem h3))
        · exact ih (vec ++ [seg]) [c] (hpush hne) (Or.inr (isSegment_single h1))
    · have hne : seg ≠ [] := by
        intro h
        subst h
        simp at h2
      exact ih (vec ++ [seg]) [] (hpush hne) (Or.inl rfl)
    · exact ih vec seg hvec hseg

theorem segments_of_isSegment {x : List Char} (hx : IsSegment x) : RpmVer.segments x = [x] := by
  rcases hx.2 with h | h
  · exact segments_digits hx.1 h
  · exact segments_letters hx.1 h

theorem cmpLists_append_right (A B : List (List Char)) (hB : B ≠ []) :
    cmpLists A (A ++ B) = -1 := by
  induction A with
  | nil =>
    cases B with
    | nil => exact absurd rfl hB
    | cons b B => rfl
  | cons a A ih =>
    rw [List.cons_append]
    simp only [cmpLists, cmpSegment_self]
    exact ih

theorem cmpLists_append_left (A B : List (List Char)) (hB : B ≠ []) :
    cmpLists (A ++ B) A = 1 := by
  rw [cmpLists_swap A (A ++ B), cmpLists_append_right A B hB]
  rfl

/-! ## The comparison when the loop reads the labels

What `VersionCompare` does in a run in which every view still shows the
characters of its segment (`Storage.Holds`). -/

theorem holds_trans {σ : Storage} {a b c : List Char} (ha : '-' ∉ a) (hb : '-' ∉ b)
    (hc : '-' ∉ c) (hab : σ.Holds a b) (hbc : σ.Holds b c) (hac : σ.Holds a c) {x y : Int}
    (h1 : VersionCompare σ a b = Except.ok x) (hx : x ≤ 0)
    (h2 : VersionCompare σ b c = Except.ok y) (hy : y ≤ 0) :
    ∃ z : Int, VersionCompare σ a c = Except.ok z ∧ z ≤ 0 := by
  rw [cmp_eq_of_holds ha hb hab] at h1
  rw [cmp_eq_of_holds hb hc hbc] at h2
  refine ⟨_, cmp_eq_of_holds ha hc hac, ?_⟩
  have hx' := Except.ok.inj h1
  have hy' := Except.ok.inj h2
  subst hx' hy'
  by_cases a1 : '~' ∈ a
  · simp [a1]
  by_cases b1 : '~' ∈ b
  · simp [a1, b1] at hx
  by_cases c1 : '~' ∈ c
  · simp [b1, c1] at hy
  by_cases a2 : '^' ∈ a
  · simp [a1, b1, a2] at hx
  by_cases b2 : '^' ∈ b
  · simp [b1, c1, b2] at hy
  by_cases c2 : '^' ∈ c
  · simp [a1, c1, a2, c2]
  simp only [a1, b1, c1, a2, b2, c2, if_false] at hx hy ⊢
  exact cmpLists_trans _ _ _ hx hy

theorem holds_antisymm {σ : Storage} {a b : List Char} (ha : '-' ∉ a) (ha1 : '~' ∉ a)
    (ha2 : '^' ∉ a) (hb : '-' ∉ b) (hb1 : '~' ∉ b) (hb2 : '^' ∉ b) (hab : σ.Holds a b)
    (hba : σ.Holds b a) :
    ∃ x : Int, VersionCompare σ a b = Except.ok x ∧ VersionCompare σ b a = Except.ok (-x) := by
  refine ⟨cmpLists (RpmVer.segments a) (RpmVer.segments b), ?_, ?_⟩
  · rw [cmp_eq_of_holds ha hb hab]
    simp only [ha1, ha2, hb1, hb2, if_false]
  · rw [cmp_eq_of_holds hb ha hba, cmpLists_swap (RpmVer.segments a) (RpmVer.segments b)]
    simp only [ha1, ha2, hb1, hb2, if_false]

theorem holds_letters {σ : Storage} {a b : List Char} (ha : a ≠ []) (hb : b ≠ [])
    (hla : ∀ c ∈ a, isalpha c = true) (hlb : ∀ c ∈ b, isalpha c = true) (hab : σ.Holds a b) :
    (List.lt a b → VersionCompare σ a b = Except.ok (-1)) ∧
      (a = b → VersionCompare σ a b = Except.ok 0) ∧
      (List.lt b a → VersionCompare σ a b = Except.ok 1) := by
  have a1 := not_mem_of_letters hla '-' (by decide)
  have b1 := not_mem_of_letters hlb '-' (by decide)
  rw [cmp_eq_of_holds a1 b1 hab]
  simp only [not_mem_of_letters hla '~' (by decide), not_mem_of_letters hlb '~' (by decide),
    not_mem_of_letters hla '^' (by decide), not_mem_of_letters hlb '^' (by decide), if_false,
    segments_letters ha hla, segments_letters hb hlb, cmpLists, cmpSegment_eq,
    asNumber_letters ha hla, asNumber_letters hb hlb]
  refine ⟨?_, ?_, ?_⟩
  · intro h
    have hne : a ≠ b := by
      intro e
      subst e
      exact list_lt_irrefl a h
    simp [hne, (compare_neg_iff a b).2 h]
  · intro h
    simp [h]
  · intro h
    have hne : a ≠ b := by
      intro e
      subst e
      exact list_lt_irrefl a h
    have h1 : compare b a < 0 := (compare_neg_iff b a).2 h
    have h2 : ¬ compare a b < 0 := by
      rw [compare_swap a b] at h1
      omega
    simp [hne, h2]

theorem holds_longer {σ : Storage} {a s : List Char} (ha : '-' ∉ a) (ha1 : '~' ∉ a)
    (ha2 : '^' ∉ a) (hs : '-' ∉ s) (hs1 : '~' ∉ s) (hs2 : '^' ∉ s)
    (hc : ∃ c ∈ s, isdigit c = true ∨ isalpha c = true)
    (h1 : σ.Holds a (a ++ ".".toList ++ s)) (h2 : σ.Holds (a ++ ".".toList ++ s) a) :
    VersionCompare σ a (a ++ ".".toList ++ s) = Except.ok (-1) ∧
      VersionCompare σ (a ++ ".".toList ++ s) a = Except.ok 1 := by
  have e : a ++ ".".toList ++ s = a ++ '.' :: s := by
    show a ++ ['.'] ++ s = a ++ '.' :: s
    simp
  rw [e] at h1 h2
  have hl : '-' ∉ a ++ '.' :: s := by
    simp only [List.mem_append, List.mem_cons, not_or]
    exact ⟨ha, by decide, hs⟩
  have hl1 : '~' ∉ a ++ '.' :: s := by
    simp only [List.mem_append, List.mem_cons, not_or]
    exact ⟨ha1, by decide, hs1⟩
  have hl2 : '^' ∉ a ++ '.' :: s := by
    simp only [List.mem_append, List.mem_cons, not_or]
    exact ⟨ha2, by decide, hs2⟩
  have hseg : RpmVer.segments (a ++ '.' :: s) = RpmVer.segments a ++ RpmVer.segments s :=
    segments_append_sep (by decide) a s
  have hne := segments_ne_nil hc
  rw [e, cmp_eq_of_holds ha hl h1, cmp_eq_of_holds hl ha h2]
  simp only [ha1, ha2, hl1, hl2, if_false, hseg]
  rw [cmpLists_append_right _ _ hne, cmpLists_append_left _ _ hne]
  exact ⟨rfl, rfl⟩

theorem holds_same_segments {σ : Storage} {a a' b : List Char} (ha : '-' ∉ a)
    (ha' : '-' ∉ a') (hb : '-' ∉ b) (hseg : VersionSegments a = VersionSegments a')
    (h1 : '~' ∈ a ↔ '~' ∈ a') (h2 : '^' ∈ a ↔ '^' ∈ a') (hab : σ.Holds a b)
    (hab' : σ.Holds a' b) :
    VersionCompare σ a b = VersionCompare σ a' b := by
  unfold VersionSegments at hseg
  rw [cmp_eq_of_holds ha hb hab, cmp_eq_of_holds ha' hb hab', hseg]
  simp only [h1, h2]

theorem holds_overflow_digits {σ : Storage} {d e : List Char}
    (hdd : ∀ c ∈ d, isdigit c = true) (hvd : 2 ^ 63 ≤ decimalValue d) (he : e ≠ [])
    (hde : ∀ c ∈ e, isdigit c = true) (hve : decimalValue e ≤ 2 ^ 63 - 1)
    (h1 : σ.Holds d e) (h2 : σ.Holds e d) :
    VersionCompare σ d e = Except.ok (-1) ∧ VersionCompare σ e d = Except.ok 1 := by
  have hd : d ≠ [] := by
    intro h
    subst h
    simp [decimalValue] at hvd
  have hbig : ¬ ((decimalValue d : Int) ≤ LLONG_MAX) := by
    unfold LLONG_MAX
    omega
  have d1 := not_mem_of_digits hdd '-' (by decide)
  have e1 := not_mem_of_digits hde '-' (by decide)
  rw [cmp_eq_of_holds d1 e1 h1, cmp_eq_of_holds e1 d1 h2]
  simp only [not_mem_of_digits hdd '~' (by decide), not_mem_of_digits hde '~' (by decide),
    not_mem_of_digits hdd '^' (by decide), not_mem_of_digits hde '^' (by decide), if_false,
    segments_digits hd hdd, segments_digits he hde, cmpLists, cmpSegment_eq,
    asNumber_digits hd hdd, asNumber_digits he hde, llong_max_of_le hve, hbig, if_true,
    and_self]

/-! ## Properties of the segments -/

/-- C11, the code at a failing input: the label `1000000` and the string
`00000000` have none of `-`, `~`, `^`, the string has digits, and for some
content of the released storage `VersionCompare` of `1000000` against
`1000000.00000000` is `1` and the other way round `-1`: the short label is
still in place, and the views into the longer one show no digits. -/
theorem VersionCompare_longer_released :
    '-' ∉ "1000000".toList ∧ '~' ∉ "1000000".toList ∧ '^' ∉ "1000000".toList ∧
      '-' ∉ "00000000".toList ∧ '~' ∉ "00000000".toList ∧ '^' ∉ "00000000".toList ∧
      (∃ c ∈ "00000000".toList, isdigit c = true ∨ isalpha c = true) ∧
      ∃ σ : Storage,
        VersionCompare σ "1000000".toList ("1000000".toList ++ ".".toList ++ "00000000".toList) =
          Except.ok 1 ∧
        VersionCompare σ ("1000000".toList ++ ".".toList ++ "00000000".toList) "1000000".toList =
          Except.ok (-1) :=
  ⟨by decide, by decide, by decide, by decide, by decide, by decide,
    ⟨'0', by decide, Or.inl (by decide)⟩, Storage.released 'x' 'x', rfl, rfl⟩

/-- C12, the code at a failing input: the labels `1000000` and
`1000000.........` have no hyphen and no marker and the same list of
segments, `999999` has no hyphen, and for some content of the released
storage `VersionCompare` answers `1` for `1000000` against `999999` and `-1`
for `1000000.........` against `999999`, and `1` instead of `0` for `1000000`
against `1000000.........`: the short labels are still in place, and the view
into the longer one shows no digits. -/
theorem VersionCompare_same_segments_released :
    '-' ∉ "1000000".toList ∧ '-' ∉ "1000000.........".toList ∧ '-' ∉ "999999".toList ∧
      VersionSegments "1000000".toList = VersionSegments "1000000.........".toList ∧
      ('~' ∈ "1000000".toList ↔ '~' ∈ "1000000.........".toList) ∧
      ('^' ∈ "1000000".toList ↔ '^' ∈ "1000000.........".toList) ∧
      '~' ∉ "1000000".toList ∧ '^' ∉ "1000000".toList ∧
      ∃ σ : Storage,
        VersionCompare σ "1000000".toList "999999".toList = Except.ok 1 ∧
        VersionCompare σ "1000000.........".toList "999999".toList = Except.ok (-1) ∧
        VersionCompare σ "1000000".toList "1000000.........".toList = Except.ok 1 :=
  ⟨by decide, by decide, by decide, rfl, by decide, by decide, by decide, by decide,
    Storage.released 'x' 'x', rfl, rfl, rfl⟩

/-- C13, the segment invariant: every element of `VersionSegments label` is
non-empty and consists entirely of digits or entirely of letters. -/
theorem VersionSegments_isSegment (label seg : List Char)
    (h : seg ∈ VersionSegments label) : IsSegment seg :=
  segmentsLoop_isSegment label [] [] (by simp) (Or.inl rfl) seg h

/-- C13 at the label `1.002.3.abc.001ab.dd100` and its segment `001`. -/
theorem VersionSegments_isSegment_witness : IsSegment "001".toList :=
  VersionSegments_isSegment "1.002.3.abc.001ab.dd100".toList "001".toList (by decide)

theorem intercalate_cons_cons (sep x y : List Char) (ys : List (List Char)) :
    List.intercalate sep (x :: y :: ys) = x ++ sep ++ List.intercalate sep (y :: ys) := by
  simp [List.intercalate, List.intersperse]

/-- C14, the segmentation round trip: for a list `xs` of strings that are each
non-empty and all digits or all letters, the segments of `xs` joined with `.`
are exactly `xs`; the empty list joins to the empty string, which has no
segment. -/
theorem VersionSegments_intercalate (xs : List (List Char)) (h : ∀ x ∈ xs, IsSegment x) :
    VersionSegments (List.intercalate ".".toList xs) = xs ∧
      List.intercalate ".".toList ([] : List (List Char)) = [] ∧
      VersionSegments [] = [] := by
  refine ⟨?_, rfl, rfl⟩
  unfold VersionSegments
  induction xs with
  | nil => rfl
  | cons x xs ih =>
    have hx : IsSegment x := h x (List.mem_cons_self _ _)
    have hxs : ∀ y ∈ xs, IsSegment y := fun y hy => h y (List.mem_cons_of_mem _ hy)
    cases xs with
    | nil =>
      have e : List.intercalate ".".toList [x] = x := by
        simp [List.intercalate, List.intersperse]
      rw [e]
      exact segments_of_isSegment hx
    | cons y ys =>
      have e : List.intercalate ".".toList (x :: y :: ys) =
          x ++ '.' :: List.intercalate ".".toList (y :: ys) := by
        rw [intercalate_cons_cons]
        show x ++ ['.'] ++ _ = _
        simp
      rw [e, segments_append_sep (by decide), segments_of_isSegment hx, ih hxs]
      rfl

/-- C14 at the list `1`, `002`, `abc`. -/
theorem VersionSegments_intercalate_witness :
    VersionSegments (List.intercalate ".".toList ["1".toList, "002".toList, "abc".toList]) =
      ["1".toList, "002".toList, "abc".toList] :=
  (VersionSegments_intercalate ["1".toList, "002".toList, "abc".toList] (by decide)).1

/-! ## Positions and substrings -/

theorem findFrom_append (c : Char) (v r : List Char) (hv : c ∉ v) (i : Nat) :
    findFrom [c] (v ++ c :: r) i = some (i + v.length) := by
  induction v generalizing i with
  | nil => simp [findFrom]
  | cons d v ih =>
    have hd : c ≠ d := fun h => hv (by simp [h])
    have hv' : c ∉ v := fun h => hv (List.mem_cons_of_mem _ h)
    have hp : ¬ ([c] <+: d :: (v ++ c :: r)) := by
      intro hp
      rcases hp with ⟨t, ht⟩
      simp at ht
      exact hd ht.1
    rw [List.cons_append, findFrom, if_neg hp, ih hv']
    simp only [List.length_cons, Option.some.injEq]
    omega

theorem findChar_append (c : Char) (v r : List Char) (hv : c ∉ v) :
    findChar (v ++ c :: r) c = some v.length := by
  unfold findChar find
  rw [findFrom_append c v r hv 0]
  simp

theorem findChar_none (c : Char) (s : List Char) (h : c ∉ s) : findChar s c = none := by
  unfold findChar find
  by_contra hne
  exact h ((findFrom_single c s 0).1 hne)

theorem exists_first (c : Char) (s : List Char) (h : c ∈ s) :
    ∃ v r, s = v ++ c :: r ∧ c ∉ v := by
  induction s with
  | nil => simp at h
  | cons d s ih =>
    by_cases hd : c = d
    · exact ⟨[], s, by simp [hd], by simp⟩
    · have hs : c ∈ s := by
        rcases List.mem_cons.1 h with h | h
        · exact absurd h hd
        · exact h
      obtain ⟨v, r, hvr, hv⟩ := ih hs
      refine ⟨d :: v, r, by simp [hvr], ?_⟩
      intro hm
      rcases List.mem_cons.1 hm with hm | hm
      · exact hd hm
      · exact hv hm

theorem substr_mid (xs ys zs : List Char) :
    substr (xs ++ (ys ++ zs)) xs.length ys.length = Except.ok ys := by
  unfold substr
  have h : ¬ xs.length > (xs ++ (ys ++ zs)).length := by simp
  rw [if_neg h]
  simp

theorem substr_tail (xs ys : List Char) (n : Nat) (hn : ys.length ≤ n) :
    substr (xs ++ ys) xs.length n = Except.ok ys := by
  unfold substr
  have h : ¬ xs.length > (xs ++ ys).length := by simp
  rw [if_neg h]
  simp [List.take_of_length_le hn]

theorem substr_head (ys zs : List Char) :
    substr (ys ++ zs) 0 ys.length = Except.ok ys :=
  substr_mid [] ys zs

/-! ## Reading the epoch -/

theorem isdigit_not_isspace {c : Char} (h : isdigit c = true) : isspace c = false := by
  unfold isdigit at h
  unfold isspace
  simp only [Bool.and_eq_true, decide_eq_true_eq] at h
  simp only [Bool.or_eq_false_iff, Bool.and_eq_false_imp, decide_eq_true_eq,
    decide_eq_false_iff_not]
  omega

theorem digits_prefix {d : List Char} (hne : d ≠ []) (hd : ∀ c ∈ d, isdigit c = true) :
    d.dropWhile isspace = d ∧ (d.head? == some '-') = false ∧ (d.head? == some '+') = false ∧
      d.takeWhile isdigit = d := by
  obtain ⟨c, t, rfl⟩ := List.exists_cons_of_ne_nil hne
  have hc : isdigit c = true := hd c (List.mem_cons_self _ _)
  have h1 : c ≠ '-' := by
    intro h
    rw [h] at hc
    exact absurd hc (by decide)
  have h2 : c ≠ '+' := by
    intro h
    rw [h] at hc
    exact absurd hc (by decide)
  refine ⟨?_, ?_, ?_, List.takeWhile_eq_self_iff.2 hd⟩
  · simp [List.dropWhile, isdigit_not_isspace hc]
  · simp [h1]
  · simp [h2]

theorem stoi_digits {d : List Char} (hne : d ≠ []) (hd : ∀ c ∈ d, isdigit c = true) :
    stoi d = if INT_MAX < (decimalValue d : Int) then Except.error Exn.out_of_range
      else Except.ok (decimalValue d : Int) := by
  obtain ⟨h1, h2, h3, h4⟩ := digits_prefix hne hd
  have hmin : ¬ ((decimalValue d : Int) < INT_MIN) := by
    have : (0 : Int) ≤ (decimalValue d : Int) := Int.natCast_nonneg _
    have h0 : INT_MIN ≤ 0 := by decide
    omega
  unfold stoi
  simp only [h1, h2, h3, Bool.or_self, Bool.false_eq_true, if_false, h4, hne,
    digitsValue_zero, hmin, false_or]

theorem stoul_digits {d : List Char} (hne : d ≠ []) (hd : ∀ c ∈ d, isdigit c = true)
    (hv : decimalValue d ≤ ULONG_MAX) : stoul d = Except.ok (decimalValue d) := by
  obtain ⟨h1, h2, h3, h4⟩ := digits_prefix hne hd
  have hmax : ¬ (ULONG_MAX < decimalValue d) := by omega
  unfold stoul
  simp only [h1, h2, h3, Bool.or_self, Bool.false_eq_true, if_false, h4, hne,
    digitsValue_zero, hmax]

/-- What `stoi` has read when it returns: white space, a sign, digits, and
a rest that it ignores. -/
theorem stoi_ok {e : List Char} {n : Int} (h : stoi e = Except.ok n) :
    ∃ ws sign digits tail : List Char, e = ws ++ sign ++ digits ++ tail ∧
      (∀ c ∈ ws, isspace c = true) ∧ (sign = [] ∨ sign = ['+'] ∨ sign = ['-']) ∧
      digits ≠ [] ∧ (∀ c ∈ digits, isdigit c = true) ∧
      n = (if sign = ['-'] then -(decimalValue digits : Int) else (decimalValue digits : Int)) ∧
      INT_MIN ≤ n ∧ n ≤ INT_MAX := by
  have hsplit : e = e.takeWhile isspace ++ e.dropWhile isspace :=
    (List.takeWhile_append_dropWhile isspace e).symm
  have hws : ∀ c ∈ e.takeWhile isspace, isspace c = true :=
    fun c hc => List.mem_takeWhile_imp hc
  unfold stoi at h
  generalize e.dropWhile isspace = body at h hsplit
  have key : ∀ (sign rest : List Char) (neg : Bool), body = sign ++ rest →
      (sign = [] ∨ sign = ['+'] ∨ sign = ['-']) → (neg = true ↔ sign = ['-']) →
      (if rest.takeWhile isdigit = [] then Except.error (Exn.invalid_argument "stoi".toList)
        else
          if (if neg = true then -(digitsValue 0 (rest.takeWhile isdigit) : Int)
              else (digitsValue 0 (rest.takeWhile isdigit) : Int)) < INT_MIN ∨
            INT_MAX < (if neg = true then -(digitsValue 0 (rest.takeWhile isdigit) : Int)
              else (digitsValue 0 (rest.takeWhile isdigit) : Int))
          then Except.error Exn.out_of_range
          else Except.ok (if neg = true then -(digitsValue 0 (rest.takeWhile isdigit) : Int)
              else (digitsValue 0 (rest.takeWhile isdigit) : Int))) = Except.ok n →
      ∃ ws sign digits tail : List Char, e = ws ++ sign ++ digits ++ tail ∧
        (∀ c ∈ ws, isspace c = true) ∧ (sign = [] ∨ sign = ['+'] ∨ sign = ['-']) ∧
        digits ≠ [] ∧ (∀ c ∈ digits, isdigit c = true) ∧
        n = (if sign = ['-'] then -(decimalValue digits : Int)
          else (decimalValue digits : Int)) ∧
        INT_MIN ≤ n ∧ n ≤ INT_MAX := by
    intro sign rest neg hbody hsign hneg hres
    by_cases hd : rest.takeWhile isdigit = []
    · rw [if_pos hd] at hres
      cases hres
    · rw [if_neg hd] at hres
      have hval : (if neg = true then -(digitsValue 0 (rest.takeWhile isdigit) : Int)
          else (digitsValue 0 (rest.takeWhile isdigit) : Int)) =
          (if sign = ['-'] then -(decimalValue (rest.takeWhile isdigit) : Int)
            else (decimalValue (rest.takeWhile isdigit) : Int)) := by
        by_cases hs : sign = ['-']
        · rw [if_pos (hneg.2 hs), if_pos hs, digitsValue_zero]
        · rw [if_neg (fun h => hs (hneg.1 h)), if_neg hs, digitsValue_zero]
      rw [hval] at hres
      obtain ⟨w, hw⟩ : ∃ w : Int, w = (if sign = ['-'] then
          -(decimalValue (rest.takeWhile isdigit) : Int)
          else (decimalValue (rest.takeWhile isdigit) : Int)) := ⟨_, rfl⟩
      rw [← hw] at hres
      by_cases hr : w < INT_MIN ∨ INT_MAX < w
      · rw [if_pos hr] at hres
        cases hres
      · rw [if_neg hr] at hres
        have hn : w = n := Except.ok.inj hres
        refine ⟨e.takeWhile isspace, sign, rest.takeWhile isdigit, rest.dropWhile isdigit,
          ?_, hws, hsign, hd, fun c hc => List.mem_takeWhile_imp hc, ?_, ?_, ?_⟩
        · rw [List.append_assoc, List.append_assoc, List.takeWhile_append_dropWhile, ← hbody]
          exact hsplit
        · rw [← hn, hw]
        · rw [← hn]
          omega
        · rw [← hn]
          omega
  cases body with
  | nil => exact key [] [] false rfl (Or.inl rfl) (by simp) (by simp at h)
  | cons c t =>
    by_cases h1 : c = '-'
    · subst h1
      exact key ['-'] t true rfl (Or.inr (Or.inr rfl)) (by simp) (by simpa using h)
    · by_cases h2 : c = '+'
      · subst h2
        exact key ['+'] t false rfl (Or.inr (Or.inl rfl)) (by simp) (by simpa using h)
      · exact key [] (c :: t) false rfl (Or.inl rfl) (by simp)
          (by simpa [h1, h2] using h)

/-! ## The validation of an EVR string -/

theorem colon_toList : ":".toList = [':'] := rfl

theorem hyphen_toList : "-".toList = ['-'] := rfl

theorem count_first (c : Char) (e rest : List Char) (he : c ∉ e) :
    List.count c (e ++ c :: rest) = List.count c rest + 1 := by
  rw [List.count_append, List.count_cons_self, List.count_eq_zero_of_not_mem he]
  omega

theorem count_first_gt_one (c : Char) (e rest : List Char) (he : c ∉ e) :
    List.count c (e ++ c :: rest) > 1 ↔ c ∈ rest := by
  rw [count_first c e rest he, ← List.count_pos_iff]
  omega

theorem isValid_no_colon {s : List Char} (h : ':' ∉ s) :
    RpmEvr.isValid s = Except.ok
      (if List.count '-' s > 1 then "EVR must contain only one hyphen symbol!".toList
        else []) := by
  have hc : ¬ List.count ':' s > 1 := by
    rw [List.count_eq_zero_of_not_mem h]
    omega
  unfold RpmEvr.isValid
  simp only [hc, if_false, colon_toList, contains_single, h, decide_False,
    Bool.false_eq_true]
  split_ifs <;> rfl

theorem isValid_two_colons (e rest : List Char) (he : ':' ∉ e) (h : ':' ∈ rest) :
    RpmEvr.isValid (e ++ ':' :: rest) =
      Except.ok "EVR must contain only one colon symbol!".toList := by
  unfold RpmEvr.isValid
  rw [if_pos ((count_first_gt_one ':' e rest he).2 h)]

theorem isValid_colon_error (e rest : List Char) (he : ':' ∉ e) (h : ':' ∉ rest) {x : Exn}
    (hx : stoi e = Except.error x) : RpmEvr.isValid (e ++ ':' :: rest) = Except.error x := by
  have hc : ¬ List.count ':' (e ++ ':' :: rest) > 1 :=
    fun hc => h ((count_first_gt_one ':' e rest he).1 hc)
  have hm : ':' ∈ e ++ ':' :: rest := by simp
  unfold RpmEvr.isValid
  simp only [hc, if_false, colon_toList, contains_single, hm, decide_True, if_true,
    findChar_append ':' e rest he, pos, Option.getD_some, substr_head, hx]

theorem isValid_colon_ok (e rest : List Char) (he : ':' ∉ e) (h : ':' ∉ rest) {n : Int}
    (hn : stoi e = Except.ok n) :
    RpmEvr.isValid (e ++ ':' :: rest) = Except.ok
      (if n < 0 then "Epoch must be a positive number!".toList
        else if List.count '-' (e ++ ':' :: rest) > 1 then
          "EVR must contain only one hyphen symbol!".toList
        else []) := by
  have hc : ¬ List.count ':' (e ++ ':' :: rest) > 1 :=
    fun hc => h ((count_first_gt_one ':' e rest he).1 hc)
  have hm : ':' ∈ e ++ ':' :: rest := by simp
  unfold RpmEvr.isValid
  simp only [hc, if_false, colon_toList, contains_single, hm, decide_True, if_true,
    findChar_append ':' e rest he, pos, Option.getD_some, substr_head, hn]
  by_cases h0 : n < 0
  · simp only [h0, decide_True, if_true]
  · simp only [h0, decide_False, if_false]
    split_ifs <;> rfl

/-- What an accepted string with a colon tells about the text before it. -/
theorem isValid_accepts_colon (e rest : List Char) (he : ':' ∉ e)
    (h : RpmEvr.isValid (e ++ ':' :: rest) = Except.ok []) :
    ':' ∉ rest ∧ List.count '-' (e ++ ':' :: rest) ≤ 1 ∧ ∃ n : Int, stoi e = Except.ok n ∧ 0 ≤ n := by
  have hr : ':' ∉ rest := by
    intro hr
    rw [isValid_two_colons e rest he hr] at h
    exact absurd (Except.ok.inj h) (by decide)
  cases hs : stoi e with
  | error x =>
    rw [isValid_colon_error e rest he hr hs] at h
    cases h
  | ok n =>
    rw [isValid_colon_ok e rest he hr hs] at h
    have h' := Except.ok.inj h
    by_cases h0 : n < 0
    · rw [if_pos h0] at h'
      exact absurd h' (by decide)
    · rw [if_neg h0] at h'
      by_cases h1 : List.count '-' (e ++ ':' :: rest) > 1
      · rw [if_pos h1] at h'
        exact absurd h' (by decide)
      · exact ⟨hr, by omega, n, rfl, by omega⟩

/-! ## The parts of an EVR string -/

theorem sizeSub_add (a b : Nat) : sizeSub (a + b) a = b := by
  unfold sizeSub
  rw [if_pos (Nat.le_add_right a b)]
  omega

theorem parseEvr_colon_hyphen (e v r : List Char) (he : ':' ∉ e) (he' : '-' ∉ e)
    (hv : '-' ∉ v) {n : Nat} (hn : stoul e = Except.ok n) :
    RpmEvr.parseEvr (e ++ ':' :: (v ++ '-' :: r)) = Except.ok ⟨n, v, r⟩ := by
  have f1 : findChar (e ++ ':' :: (v ++ '-' :: r)) ':' = some e.length :=
    findChar_append ':' e _ he
  have f2 : findChar (e ++ ':' :: (v ++ '-' :: r)) '-' = some (e.length + 1 + v.length) := by
    have h := findChar_append '-' (e ++ ':' :: v) r (by
      simp only [List.mem_append, List.mem_cons, not_or]
      exact ⟨he', by decide, hv⟩)
    simp only [List.append_assoc, List.cons_append, List.length_append, List.length_cons] at h
    rw [h]
    congr 1
    omega
  have s1 : substr (e ++ ':' :: (v ++ '-' :: r)) 0 e.length = Except.ok e := substr_head e _
  have s2 : substr (e ++ ':' :: (v ++ '-' :: r)) (e.length + 1) v.length = Except.ok v := by
    have h := substr_mid (e ++ [':']) v ('-' :: r)
    simpa using h
  have s3 : substr (e ++ ':' :: (v ++ '-' :: r)) (e.length + 1 + v.length + 1)
      (e ++ ':' :: (v ++ '-' :: r)).length = Except.ok r := by
    have h := substr_tail (e ++ ':' :: (v ++ ['-'])) r (e ++ ':' :: (v ++ '-' :: r)).length
      (by simp; omega)
    have e1 : (e ++ ':' :: (v ++ ['-'])).length = e.length + 1 + v.length + 1 := by
      simp
      omega
    rw [e1] at h
    simpa using h
  have m1 : ':' ∈ e ++ ':' :: (v ++ '-' :: r) := by simp
  have m2 : '-' ∈ e ++ ':' :: (v ++ '-' :: r) := by simp
  generalize e ++ ':' :: (v ++ '-' :: r) = s at f1 f2 s1 s2 s3 m1 m2
  unfold RpmEvr.parseEvr
  simp only [colon_toList, hyphen_toList, contains_single, m1, m2, decide_True, if_true, f1,
    f2, pos, Option.getD_some, s1, hn]
  have hnone : ¬ (some e.length = (none : Option Nat)) := by simp
  have hsz := sizeSub_add (e.length + 1) v.length
  simp only [hnone, if_false, hsz, s2, s3]

theorem parseEvr_colon (e v : List Char) (he : ':' ∉ e) (hh : '-' ∉ e ++ ':' :: v)
    {n : Nat} (hn : stoul e = Except.ok n) :
    RpmEvr.parseEvr (e ++ ':' :: v) = Except.ok ⟨n, v, []⟩ := by
  have f1 : findChar (e ++ ':' :: v) ':' = some e.length := findChar_append ':' e _ he
  have s1 : substr (e ++ ':' :: v) 0 e.length = Except.ok e := substr_head e _
  have s2 : substr (e ++ ':' :: v) (e.length + 1) (e ++ ':' :: v).length = Except.ok v := by
    have h := substr_tail (e ++ [':']) v (e ++ ':' :: v).length (by simp; omega)
    simpa using h
  have m1 : ':' ∈ e ++ ':' :: v := by simp
  generalize e ++ ':' :: v = s at f1 s1 s2 m1 hh
  unfold RpmEvr.parseEvr
  simp only [colon_toList, hyphen_toList, contains_single, m1, hh, decide_True, decide_False,
    if_true, Bool.false_eq_true, if_false, f1, pos, Option.getD_some, s1, hn, s2]

theorem parseEvr_hyphen (v r : List Char) (hc : ':' ∉ v ++ '-' :: r) (hv : '-' ∉ v) :
    RpmEvr.parseEvr (v ++ '-' :: r) = Except.ok ⟨0, v, r⟩ := by
  have f1 : findChar (v ++ '-' :: r) ':' = none := findChar_none ':' _ hc
  have f2 : findChar (v ++ '-' :: r) '-' = some (0 + v.length) := by
    rw [findChar_append '-' v r hv]
    simp
  have s2 : substr (v ++ '-' :: r) 0 v.length = Except.ok v := substr_head v _
  have s3 : substr (v ++ '-' :: r) (v.length + 1) (v ++ '-' :: r).length = Except.ok r := by
    have h := substr_tail (v ++ ['-']) r (v ++ '-' :: r).length (by simp; omega)
    simpa using h
  have m2 : '-' ∈ v ++ '-' :: r := by simp
  generalize v ++ '-' :: r = s at f1 f2 s2 s3 m2 hc
  unfold RpmEvr.parseEvr
  simp only [colon_toList, hyphen_toList, contains_single, m2, hc, decide_True, decide_False,
    if_true, Bool.false_eq_true, if_false, f1, f2, pos, Option.getD_some, sizeSub_add]
  simp only [Nat.zero_add, s2, s3]

theorem parseEvr_plain (s : List Char) (hc : ':' ∉ s) (hh : '-' ∉ s) :
    RpmEvr.parseEvr s = Except.ok ⟨0, s, []⟩ := by
  unfold RpmEvr.parseEvr
  simp only [colon_toList, hyphen_toList, contains_single, hc, hh, decide_False,
    Bool.false_eq_true, if_false]

theorem new_of_accepted {s : List Char} (h : RpmEvr.isValid s = Except.ok []) :
    RpmEvr.new s = RpmEvr.parseEvr s := by
  unfold RpmEvr.new
  rw [h]
  rfl

/-! ## Properties of `EvrValidate` and of the parts of an EVR -/

/-- C15, the code at failing inputs: `EvrValidate` does not return a string
for `a:1.2.3` nor for `:1.2.3`, where the `std::stoi` on the text before the
colon throws `std::invalid_argument`, nor for `2147483648:1.2.3`, where it
throws `std::out_of_range`. -/
theorem EvrValidate_throws :
    EvrValidate "a:1.2.3".toList = Except.error (Exn.invalid_argument "stoi".toList) ∧
      EvrValidate ":1.2.3".toList = Except.error (Exn.invalid_argument "stoi".toList) ∧
      EvrValidate "2147483648:1.2.3".toList = Except.error Exn.out_of_range :=
  ⟨rfl, rfl, rfl⟩

/-- C16: a string for which `EvrValidate` returns the empty diagnostic has at
most one `:` and at most one `-`. -/
theorem EvrValidate_accepts_counts (s : List Char) (h : EvrValidate s = Except.ok "".toList) :
    List.count ':' s ≤ 1 ∧ List.count '-' s ≤ 1 := by
  unfold EvrValidate at h
  by_cases hc : ':' ∈ s
  · obtain ⟨e, rest, rfl, he⟩ := exists_first ':' s hc
    obtain ⟨hr, hcount, _⟩ := isValid_accepts_colon e rest he h
    refine ⟨?_, hcount⟩
    rw [count_first ':' e rest he, List.count_eq_zero_of_not_mem hr]
  · rw [isValid_no_colon hc] at h
    have h' := Except.ok.inj h
    refine ⟨by rw [List.count_eq_zero_of_not_mem hc]; omega, ?_⟩
    by_contra hgt
    rw [if_pos (by omega)] at h'
    exact absurd h' (by decide)

/-- C16 at `1:1.2.3-a`. -/
theorem EvrValidate_accepts_counts_witness :
    List.count ':' "1:1.2.3-a".toList ≤ 1 ∧ List.count '-' "1:1.2.3-a".toList ≤ 1 :=
  EvrValidate_accepts_counts "1:1.2.3-a".toList rfl

/-- C17, the code at failing inputs: `EvrValidate` accepts `1a:2`, ` 1:2`,
`+1:2` and `-0:2`, and in none of them the text before the colon is a string
of digits. -/
theorem EvrValidate_accepts_non_digits :
    (EvrValidate ("1a".toList ++ ':' :: "2".toList) = Except.ok "".toList ∧
        ¬ (∀ c ∈ "1a".toList, isdigit c = true)) ∧
      (EvrValidate (" 1".toList ++ ':' :: "2".toList) = Except.ok "".toList ∧
        ¬ (∀ c ∈ " 1".toList, isdigit c = true)) ∧
      (EvrValidate ("+1".toList ++ ':' :: "2".toList) = Except.ok "".toList ∧
        ¬ (∀ c ∈ "+1".toList, isdigit c = true)) ∧
      (EvrValidate ("-0".toList ++ ':' :: "2".toList) = Except.ok "".toList ∧
        ¬ (∀ c ∈ "-0".toList, isdigit c = true)) :=
  ⟨⟨rfl, by decide⟩, ⟨rfl, by decide⟩, ⟨rfl, by decide⟩, ⟨rfl, by decide⟩⟩

/-- C18, the code at a failing input: `2147483648` is a non-empty string of
digits, `1.2` and `3` have no `:` and no `-`, and the construction of an Evr
from `2147483648:1.2-3` and from `2147483648:1.2` throws `std::out_of_range`,
although `std::stoul` reads the epoch `2147483648`. -/
theorem RpmEvr_new_large_epoch :
    "2147483648".toList ≠ [] ∧ (∀ c ∈ "2147483648".toList, isdigit c = true) ∧
      ':' ∉ "1.2".toList ∧ '-' ∉ "1.2".toList ∧ ':' ∉ "3".toList ∧ '-' ∉ "3".toList ∧
      RpmEvr.new ("2147483648".toList ++ ":".toList ++ "1.2".toList ++ "-".toList ++ "3".toList)
        = Except.error Exn.out_of_range ∧
      RpmEvr.new ("2147483648".toList ++ ":".toList ++ "1.2".toList)
        = Except.error Exn.out_of_range ∧
      stoul "2147483648".toList = Except.ok 2147483648 :=
  ⟨by decide, by decide, by decide, by decide, by decide, by decide, rfl, rfl, rfl⟩

/-- The parts of a full string whose epoch is in the range of `int`: for a
non-empty string of digits `d` whose value is at most `2 ^ 31 - 1` and
strings `v`, `r` without `:` and `-`, the construction of an Evr from
`d ++ ":" ++ v ++ "-" ++ r` succeeds with the value of `d` as epoch, `v` as
version and `r` as release, and from `d ++ ":" ++ v` with the same epoch and
version and the empty release. -/
theorem RpmEvr_new_full (d v r : List Char) (hd : d ≠ []) (hdd : ∀ c ∈ d, isdigit c = true)
    (hval : decimalValue d ≤ 2 ^ 31 - 1) (hv1 : ':' ∉ v) (hv2 : '-' ∉ v) (hr1 : ':' ∉ r)
    (hr2 : '-' ∉ r) :
    RpmEvr.new (d ++ ":".toList ++ v ++ "-".toList ++ r) = Except.ok ⟨decimalValue d, v, r⟩ ∧
      RpmEvr.new (d ++ ":".toList ++ v) = Except.ok ⟨decimalValue d, v, []⟩ := by
  have e1 : d ++ ":".toList ++ v ++ "-".toList ++ r = d ++ ':' :: (v ++ '-' :: r) := by
    rw [colon_toList, hyphen_toList]
    simp
  have e2 : d ++ ":".toList ++ v = d ++ ':' :: v := by
    rw [colon_toList]
    simp
  have hd1 : ':' ∉ d := not_mem_of_digits hdd ':' (by decide)
  have hd2 : '-' ∉ d := not_mem_of_digits hdd '-' (by decide)
  have hstoi : stoi d = Except.ok (decimalValue d : Int) := by
    rw [stoi_digits hd hdd, if_neg]
    unfold INT_MAX
    omega
  have hstoul : stoul d = Except.ok (decimalValue d) :=
    stoul_digits hd hdd (by unfold ULONG_MAX; omega)
  have h0 : ¬ ((decimalValue d : Int) < 0) := by omega
  rw [e1, e2]
  constructor
  · have hrest : ':' ∉ v ++ '-' :: r := by
      simp only [List.mem_append, List.mem_cons, not_or]
      exact ⟨hv1, by decide, hr1⟩
    have hcount : ¬ List.count '-' (d ++ ':' :: (v ++ '-' :: r)) > 1 := by
      have hpre : '-' ∉ d ++ ':' :: v := by
        simp only [List.mem_append, List.mem_cons, not_or]
        exact ⟨hd2, by decide, hv2⟩
      have h := count_first '-' (d ++ ':' :: v) r hpre
      simp only [List.append_assoc, List.cons_append] at h
      rw [h, List.count_eq_zero_of_not_mem hr2]
      omega
    have hvalid : RpmEvr.isValid (d ++ ':' :: (v ++ '-' :: r)) = Except.ok [] := by
      rw [isValid_colon_ok d _ hd1 hrest hstoi, if_neg h0, if_neg hcount]
    rw [new_of_accepted hvalid]
    exact parseEvr_colon_hyphen d v r hd1 hd2 hv2 hstoul
  · have hh : '-' ∉ d ++ ':' :: v := by
      simp only [List.mem_append, List.mem_cons, not_or]
      exact ⟨hd2, by decide, hv2⟩
    have hcount : ¬ List.count '-' (d ++ ':' :: v) > 1 := by
      rw [List.count_eq_zero_of_not_mem hh]
      omega
    have hvalid : RpmEvr.isValid (d ++ ':' :: v) = Except.ok [] := by
      rw [isValid_colon_ok d _ hd1 hv1 hstoi, if_neg h0, if_neg hcount]
    rw [new_of_accepted hvalid]
    exact parseEvr_colon d v hd1 hh hstoul

/-- The parts of `009:1.2.3.4.5.6-a.b.c.d.e.f`, and of the same without the
release. -/
theorem RpmEvr_new_full_witness :
    RpmEvr.new ("009".toList ++ ":".toList ++ "1.2.3.4.5.6".toList ++ "-".toList ++
        "a.b.c.d.e.f".toList) = Except.ok ⟨9, "1.2.3.4.5.6".toList, "a.b.c.d.e.f".toList⟩ ∧
      RpmEvr.new ("009".toList ++ ":".toList ++ "1.2.3.4.5.6".toList) =
        Except.ok ⟨9, "1.2.3.4.5.6".toList, []⟩ :=
  RpmEvr_new_full "009".toList "1.2.3.4.5.6".toList "a.b.c.d.e.f".toList (by decide)
    (by decide) (by decide) (by decide) (by decide) (by decide) (by decide)

/-- C19: for a string `s` without `:` and with at most one `-`, the
construction of an Evr succeeds with epoch `0`; when `s` has a `-`, the
version is the part of `s` before it and the release the part after it; when
it has none, the version is `s` and the release is empty. -/
theorem RpmEvr_new_no_epoch (s : List Char) (hc : ':' ∉ s) (hh : List.count '-' s ≤ 1) :
    ∃ evr : RpmEvr, RpmEvr.new s = Except.ok evr ∧ evr.epoch = 0 ∧
      ('-' ∈ s → '-' ∉ evr.version ∧ s = evr.version ++ "-".toList ++ evr.release) ∧
      ('-' ∉ s → evr.version = s ∧ evr.release = "".toList) := by
  have hvalid : RpmEvr.isValid s = Except.ok [] := by
    rw [isValid_no_colon hc, if_neg (by omega)]
  rw [new_of_accepted hvalid]
  by_cases hm : '-' ∈ s
  · obtain ⟨v, r, rfl, hv⟩ := exists_first '-' s hm
    refine ⟨⟨0, v, r⟩, parseEvr_hyphen v r hc hv, rfl, ?_, fun h => absurd hm h⟩
    intro _
    refine ⟨hv, ?_⟩
    rw [hyphen_toList]
    simp
  · exact ⟨⟨0, s, []⟩, parseEvr_plain s hc hm, rfl, fun h => absurd h hm, fun _ => ⟨rfl, rfl⟩⟩

/-- C19 at `1.2.3-4`. -/
theorem RpmEvr_new_no_epoch_witness :
    ∃ evr : RpmEvr, RpmEvr.new "1.2.3-4".toList = Except.ok evr ∧ evr.epoch = 0 ∧
      ('-' ∈ "1.2.3-4".toList →
        '-' ∉ evr.version ∧ "1.2.3-4".toList = evr.version ++ "-".toList ++ evr.release) ∧
      ('-' ∉ "1.2.3-4".toList → evr.version = "1.2.3-4".toList ∧ evr.release = "".toList) :=
  RpmEvr_new_no_epoch "1.2.3-4".toList (by decide) (by decide)

/-- C20, the code at a failing input: `EvrValidate` accepts `1-2:3`, which
has a `-`; the Evr constructed from it has epoch `1`, version `3` and release
`2:3`, and the text before the colon, `:`, the version, `-` and the release
do not make up the string again. -/
theorem RpmEvr_new_hyphen_before_colon :
    EvrValidate "1-2:3".toList = Except.ok "".toList ∧ '-' ∈ "1-2:3".toList ∧
      RpmEvr.new "1-2:3".toList = Except.ok ⟨1, "3".toList, "2:3".toList⟩ ∧
      "1-2".toList ++ ":".toList ++ "3".toList ++ "-".toList ++ "2:3".toList ≠ "1-2:3".toList :=
  ⟨rfl, by decide, rfl, by decide⟩

/-! ## Further properties of `VersionCompare` and `VersionSegments` -/

/-- C25, the code at failing inputs: the labels `9223372036854775808` and
`a` have none of `-`, `~`, `^`, nor have `................1000000` and
`0000000000000002`; for some content of the released storage `VersionCompare`
answers `-1` for the first against the second and `-1` for the second against
the first, in both pairs.  In that storage the letter is still in place, and
so are the digits `1000000`, which lie beyond the first 16 bytes of their
buffer, as long as they stand on the right; every other view into a longer
label shows bytes that are no digits, smaller than a letter on the left and
larger than `a` on the right. -/
theorem VersionCompare_not_antisymm_no_marker :
    ('-' ∉ "9223372036854775808".toList ∧ '~' ∉ "9223372036854775808".toList ∧
        '^' ∉ "9223372036854775808".toList ∧ '-' ∉ "a".toList ∧ '~' ∉ "a".toList ∧
        '^' ∉ "a".toList) ∧
      ('-' ∉ "................1000000".toList ∧ '~' ∉ "................1000000".toList ∧
        '^' ∉ "................1000000".toList ∧ '-' ∉ "0000000000000002".toList ∧
        '~' ∉ "0000000000000002".toList ∧ '^' ∉ "0000000000000002".toList) ∧
      ∃ σ : Storage,
        (VersionCompare σ "9223372036854775808".toList "a".toList = Except.ok (-1) ∧
          VersionCompare σ "a".toList "9223372036854775808".toList = Except.ok (-1)) ∧
        (VersionCompare σ "................1000000".toList "0000000000000002".toList =
            Except.ok (-1) ∧
          VersionCompare σ "0000000000000002".toList "................1000000".toList =
            Except.ok (-1)) :=
  ⟨⟨by decide, by decide, by decide, by decide, by decide, by decide⟩,
    ⟨by decide, by decide, by decide, by decide, by decide, by decide⟩,
    Storage.releasedBut "................1000000".toList ' ' 'x', ⟨rfl, rfl⟩, ⟨rfl, rfl⟩⟩

/-- C26, the code at failing inputs: `1000000000000000` and
`2000000000000000` are non-empty strings of digits with values below
`2 ^ 63`, the first value is the smaller, and for some content of the
released storage `VersionCompare` answers `0`; and `007` against
`9223372036854775807`, the largest value, gets `1`, although `7` is the
smaller. -/
theorem VersionCompare_digits_in_range_released :
    "1000000000000000".toList ≠ [] ∧ "2000000000000000".toList ≠ [] ∧
      (∀ c ∈ "1000000000000000".toList, isdigit c = true) ∧
      (∀ c ∈ "2000000000000000".toList, isdigit c = true) ∧
      decimalValue "1000000000000000".toList ≤ 2 ^ 63 - 1 ∧
      decimalValue "2000000000000000".toList ≤ 2 ^ 63 - 1 ∧
      Int.sign ((decimalValue "1000000000000000".toList : Int) -
        (decimalValue "2000000000000000".toList : Int)) = -1 ∧
      "007".toList ≠ [] ∧ (∀ c ∈ "007".toList, isdigit c = true) ∧
      (∀ c ∈ "9223372036854775807".toList, isdigit c = true) ∧
      decimalValue "9223372036854775807".toList ≤ 2 ^ 63 - 1 ∧
      Int.sign ((decimalValue "007".toList : Int) -
        (decimalValue "9223372036854775807".toList : Int)) = -1 ∧
      ∃ σ : Storage,
        VersionCompare σ "1000000000000000".toList "2000000000000000".toList = Except.ok 0 ∧
        VersionCompare σ "007".toList "9223372036854775807".toList = Except.ok 1 :=
  ⟨by decide, by decide, by decide, by decide, by decide, by decide, by decide, by decide,
    by decide, by decide, by decide, by decide, Storage.released 'x' 'x', rfl, rfl⟩

/-- C27, the code at a failing input: `9223372036854775808` is a string of
digits whose value is `2 ^ 63`, `0000000000000000001` a non-empty string of
digits whose value is `1`, and for some content of the released storage, the
same behind the views of both sides, `VersionCompare` of the first against
the second is `0` instead of `-1`. -/
theorem VersionCompare_overflow_digits_released :
    (∀ c ∈ "9223372036854775808".toList, isdigit c = true) ∧
      2 ^ 63 ≤ decimalValue "9223372036854775808".toList ∧
      "0000000000000000001".toList ≠ [] ∧
      (∀ c ∈ "0000000000000000001".toList, isdigit c = true) ∧
      decimalValue "0000000000000000001".toList ≤ 2 ^ 63 - 1 ∧
      ∃ σ : Storage,
        VersionCompare σ "9223372036854775808".toList "0000000000000000001".toList =
          Except.ok 0 :=
  ⟨by decide, by decide, by decide, by decide, by decide, Storage.released 'x' 'x', rfl⟩

theorem segments_flatten (label : List Char) :
    (RpmVer.segments label).flatten = label.filter (fun c => isdigit c || isalpha c) := by
  have h := segmentsLoop_join label [] []
  simpa [RpmVer.segments] using h

theorem segments_eq_nil_iff (label : List Char) :
    RpmVer.segments label = [] ↔ ∀ c ∈ label, (isdigit c || isalpha c) = false := by
  have hj := segments_flatten label
  constructor
  · intro hnil c hc
    rw [hnil] at hj
    have hf : label.filter (fun c => isdigit c || isalpha c) = [] := by
      simpa using hj.symm
    by_contra hne
    have ht : (isdigit c || isalpha c) = true := by
      cases h : (isdigit c || isalpha c)
      · exact absurd h hne
      · rfl
    have hmem : c ∈ label.filter (fun c => isdigit c || isalpha c) :=
      List.mem_filter.2 ⟨hc, ht⟩
    rw [hf] at hmem
    simp at hmem
  · intro hall
    have hf : label.filter (fun c => isdigit c || isalpha c) = [] := by
      rw [List.filter_eq_nil_iff]
      intro c hc
      rw [hall c hc]
      simp
    rw [hf] at hj
    cases hseg : RpmVer.segments label with
    | nil => rfl
    | cons x xs =>
      have hx : IsSegment x :=
        segmentsLoop_isSegment label [] [] (by simp) (Or.inl rfl) x (by
          have : x ∈ RpmVer.segments label := by rw [hseg]; simp
          exact this)
      rw [hseg] at hj
      simp at hj
      exact absurd hj.1 hx.1

/-- C30: the segments of a label, put together in order, are the label
without the characters that are neither letter nor digit; and the label has
no segment exactly when it has no letter and no digit. -/
theorem VersionSegments_flatten (label : List Char) :
    (VersionSegments label).flatten = label.filter (fun c => isdigit c || isalpha c) ∧
      (VersionSegments label = [] ↔ ∀ c ∈ label, (isdigit c || isalpha c) = false) :=
  ⟨segments_flatten label, segments_eq_nil_iff label⟩

/-! ## The order of two labels and of two EVR objects -/

theorem cmp_eq_labelOrder (σ : Storage) {a b : List Char} (ha : '-' ∉ a) (hb : '-' ∉ b) :
    RpmVer.cmp σ a b = Except.ok (labelOrder σ a b) :=
  cmp_eq σ ha hb

theorem labelOrder_values (σ : Storage) (a b : List Char) :
    labelOrder σ a b = -1 ∨ labelOrder σ a b = 0 ∨ labelOrder σ a b = 1 := by
  unfold labelOrder
  split_ifs
  · simp
  · simp
  · simp
  · simp
  · exact cmpLists_values _ _

/-- A label against itself: the two sides show the same bytes, and every pair
of segments falls through. -/
theorem labelOrder_self (σ : Storage) {a : List Char} (h1 : '~' ∉ a) (h2 : '^' ∉ a) :
    labelOrder σ a a = 0 := by
  have hsame : σ.lhs a a = σ.rhs a a := by
    funext i j
    exact σ.same a i j
  unfold labelOrder
  simp only [h1, h2, if_false, hsame, cmpLists_self]

theorem stoul_of_stoi {e : List Char} {n : Int} (h : stoi e = Except.ok n) :
    ∃ m : Nat, stoul e = Except.ok m := by
  have key : ∀ (digits : List Char) (neg : Bool),
      (if digits = [] then Except.error (Exn.invalid_argument "stoi".toList)
        else
          if (if neg = true then -(digitsValue 0 digits : Int) else (digitsValue 0 digits : Int))
              < INT_MIN ∨
            INT_MAX < (if neg = true then -(digitsValue 0 digits : Int)
              else (digitsValue 0 digits : Int))
          then Except.error Exn.out_of_range
          else Except.ok (if neg = true then -(digitsValue 0 digits : Int)
              else (digitsValue 0 digits : Int))) = Except.ok n →
      ∃ m : Nat,
        (if digits = [] then Except.error (Exn.invalid_argument "stoul".toList)
          else
            if ULONG_MAX < digitsValue 0 digits then Except.error Exn.out_of_range
            else Except.ok (if neg = true then (2 ^ 64 - digitsValue 0 digits) % 2 ^ 64
              else digitsValue 0 digits)) = Except.ok m := by
    intro digits neg hres
    by_cases hd : digits = []
    · rw [if_pos hd] at hres
      cases hres
    · rw [if_neg hd] at hres
      rw [if_neg hd]
      have hsmall : ¬ (ULONG_MAX < digitsValue 0 digits) := by
        intro hbig
        unfold ULONG_MAX at hbig
        cases neg with
        | true =>
          simp only [if_true] at hres
          rw [if_pos (Or.inl (by unfold INT_MIN; omega))] at hres
          cases hres
        | false =>
          simp only [Bool.false_eq_true, if_false] at hres
          rw [if_pos (Or.inr (by unfold INT_MAX; omega))] at hres
          cases hres
      rw [if_neg hsmall]
      exact ⟨_, rfl⟩
  exact key _ _ h

theorem new_ok {s : List Char} {evr : RpmEvr} (h : RpmEvr.new s = Except.ok evr) :
    RpmEvr.isValid s = Except.ok [] ∧ RpmEvr.parseEvr s = Except.ok evr := by
  unfold RpmEvr.new at h
  cases hv : RpmEvr.isValid s with
  | error x =>
    rw [hv] at h
    cases h
  | ok msg =>
    rw [hv] at h
    cases msg with
    | nil => exact ⟨rfl, h⟩
    | cons c t =>
      simp only [List.isEmpty_cons, Bool.not_false, if_true] at h
      cases h

theorem new_rejected {s msg : List Char} (h : RpmEvr.isValid s = Except.ok msg)
    (hne : msg ≠ []) : RpmEvr.new s = Except.error (Exn.invalid_argument msg) := by
  unfold RpmEvr.new
  rw [h]
  cases msg with
  | nil => exact absurd rfl hne
  | cons c t => rfl

theorem substr_from (xs ys : List Char) (n : Nat) :
    substr (xs ++ ys) xs.length n = Except.ok (ys.take n) := by
  unfold substr
  have h : ¬ xs.length > (xs ++ ys).length := by simp
  rw [if_neg h]
  simp

theorem parseEvr_hyphen_colon (e1 e2 rest : List Char) (h1 : '-' ∉ e1)
    (hc : ':' ∉ e1 ++ '-' :: e2) {m : Nat} (hm : stoul (e1 ++ '-' :: e2) = Except.ok m) :
    ∃ k : Nat, RpmEvr.parseEvr ((e1 ++ '-' :: e2) ++ ':' :: rest) =
      Except.ok ⟨m, rest.take k, e2 ++ ':' :: rest⟩ := by
  have f1 : findChar ((e1 ++ '-' :: e2) ++ ':' :: rest) ':' = some (e1 ++ '-' :: e2).length :=
    findChar_append ':' _ rest hc
  have f2 : findChar ((e1 ++ '-' :: e2) ++ ':' :: rest) '-' = some e1.length := by
    have h := findChar_append '-' e1 (e2 ++ ':' :: rest) h1
    simpa using h
  have s1 : substr ((e1 ++ '-' :: e2) ++ ':' :: rest) 0 (e1 ++ '-' :: e2).length =
      Except.ok (e1 ++ '-' :: e2) := substr_head _ _
  have s2 : ∀ n, substr ((e1 ++ '-' :: e2) ++ ':' :: rest) ((e1 ++ '-' :: e2).length + 1) n =
      Except.ok (rest.take n) := by
    intro n
    have h := substr_from ((e1 ++ '-' :: e2) ++ [':']) rest n
    simpa using h
  have s3 : substr ((e1 ++ '-' :: e2) ++ ':' :: rest) (e1.length + 1)
      ((e1 ++ '-' :: e2) ++ ':' :: rest).length = Except.ok (e2 ++ ':' :: rest) := by
    have h := substr_tail (e1 ++ ['-']) (e2 ++ ':' :: rest)
      ((e1 ++ '-' :: e2) ++ ':' :: rest).length (by simp; omega)
    simpa using h
  have m1 : ':' ∈ (e1 ++ '-' :: e2) ++ ':' :: rest := by simp
  have m2 : '-' ∈ (e1 ++ '-' :: e2) ++ ':' :: rest := by simp
  refine ⟨sizeSub e1.length ((e1 ++ '-' :: e2).length + 1), ?_⟩
  generalize (e1 ++ '-' :: e2) ++ ':' :: rest = s at f1 f2 s1 s2 s3 m1 m2
  generalize (e1 ++ '-' :: e2).length = len at f1 s1 s2
  unfold RpmEvr.parseEvr
  simp only [colon_toList, hyphen_toList, contains_single, m1, m2, decide_True, if_true, f1,
    f2, pos, Option.getD_some, s1, hm]
  have hnone : ¬ (some len = (none : Option Nat)) := by simp
  simp only [hnone, if_false, s2, s3]

theorem not_mem_of_count_first (c : Char) (v r : List Char) (hv : c ∉ v)
    (h : List.count c (v ++ c :: r) ≤ 1) : c ∉ r := by
  rw [count_first c v r hv] at h
  intro hr
  have := List.count_pos_iff.2 hr
  omega

/-- An accepted string parses, and neither part has a hyphen. -/
theorem parseEvr_of_accepted {s : List Char} (h : RpmEvr.isValid s = Except.ok []) :
    ∃ evr : RpmEvr, RpmEvr.parseEvr s = Except.ok evr ∧ '-' ∉ evr.version ∧
      '-' ∉ evr.release ∧ (':' ∉ s → evr.epoch = 0) := by
  by_cases hc : ':' ∈ s
  · obtain ⟨e, rest, rfl, he⟩ := exists_first ':' s hc
    obtain ⟨hr, hcount, n, hn, _⟩ := isValid_accepts_colon e rest he h
    obtain ⟨m, hm⟩ := stoul_of_stoi hn
    by_cases hhe : '-' ∈ e
    · obtain ⟨e1, e2, rfl, h1⟩ := exists_first '-' e hhe
      have hcount' : List.count '-' (e1 ++ '-' :: (e2 ++ ':' :: rest)) ≤ 1 := by
        simpa using hcount
      have hno := not_mem_of_count_first '-' e1 (e2 ++ ':' :: rest) h1 hcount'
      obtain ⟨k, hk⟩ := parseEvr_hyphen_colon e1 e2 rest h1 he hm
      refine ⟨_, hk, ?_, hno, fun h' => absurd hc h'⟩
      intro hmem
      exact hno (by
        have := List.mem_of_mem_take hmem
        simp [this])
    · by_cases hhr : '-' ∈ rest
      · obtain ⟨v, r, rfl, hv⟩ := exists_first '-' rest hhr
        have hpre : '-' ∉ e ++ ':' :: v := by
          simp only [List.mem_append, List.mem_cons, not_or]
          exact ⟨hhe, by decide, hv⟩
        have hcount' : List.count '-' ((e ++ ':' :: v) ++ '-' :: r) ≤ 1 := by
          simpa using hcount
        have hno := not_mem_of_count_first '-' (e ++ ':' :: v) r hpre hcount'
        exact ⟨_, parseEvr_colon_hyphen e v r he hhe hv hm, hv, hno, fun h' => absurd hc h'⟩
      · have hh : '-' ∉ e ++ ':' :: rest := by
          simp only [List.mem_append, List.mem_cons, not_or]
          exact ⟨hhe, by decide, hhr⟩
        exact ⟨_, parseEvr_colon e rest he hh hm, hhr, by simp, fun h' => absurd hc h'⟩
  · rw [isValid_no_colon hc] at h
    have hcount : List.count '-' s ≤ 1 := by
      by_contra hgt
      rw [if_pos (by omega)] at h
      exact absurd (Except.ok.inj h) (by decide)
    by_cases hm : '-' ∈ s
    · obtain ⟨v, r, rfl, hv⟩ := exists_first '-' s hm
      have hno := not_mem_of_count_first '-' v r hv hcount
      exact ⟨_, parseEvr_hyphen v r hc hv, hv, hno, fun _ => rfl⟩
    · exact ⟨_, parseEvr_plain s hc hm, hm, by simp, fun _ => rfl⟩

theorem new_hyphen_free {s : List Char} {evr : RpmEvr} (h : RpmEvr.new s = Except.ok evr) :
    '-' ∉ evr.version ∧ '-' ∉ evr.release ∧ (':' ∉ s → evr.epoch = 0) := by
  obtain ⟨hv, hp⟩ := new_ok h
  obtain ⟨evr', hp', h1, h2, h3⟩ := parseEvr_of_accepted hv
  rw [hp] at hp'
  have e := Except.ok.inj hp'
  subst e
  exact ⟨h1, h2, h3⟩

theorem evrOrder_values (σ : Storage) (ea eb : RpmEvr) :
    evrOrder σ ea eb = -1 ∨ evrOrder σ ea eb = 0 ∨ evrOrder σ ea eb = 1 := by
  unfold evrOrder
  split_ifs
  · simp
  · simp
  · exact labelOrder_values _ _ _
  · exact labelOrder_values _ _ _

theorem evr_cmp_impl_eq (σ : Storage) (ea eb : RpmEvr) (hv : '-' ∉ ea.version)
    (hv' : '-' ∉ eb.version) (hr : '-' ∉ ea.release) (hr' : '-' ∉ eb.release) :
    RpmEvr.cmp_impl σ ea eb = Except.ok (evrOrder σ ea eb) := by
  unfold RpmEvr.cmp_impl evrOrder
  rw [cmp_eq_labelOrder σ hv hv', cmp_eq_labelOrder σ hr hr']
  by_cases h1 : ea.epoch > eb.epoch
  · simp only [h1, if_true]
  · by_cases h2 : ea.epoch < eb.epoch
    · simp only [h1, h2, if_true, if_false]
    · by_cases h3 : labelOrder σ ea.version eb.version ≠ 0
      · simp only [h1, h2, h3, if_false, if_true, ne_eq, not_false_eq_true]
      · by_cases h4 : labelOrder σ ea.release eb.release ≠ 0
        · simp only [h1, h2, h3, h4, if_false, if_true, ne_eq, not_false_eq_true]
        · have h4' : labelOrder σ ea.release eb.release = 0 := not_not.1 h4
          simp only [h1, h2, h3, h4, if_false, h4']
          rfl

theorem evrCompare_eq (σ : Storage) {a b : List Char} {ea eb : RpmEvr}
    (ha : RpmEvr.new a = Except.ok ea) (hb : RpmEvr.new b = Except.ok eb) :
    EvrCompare σ a b = Except.ok (evrOrder σ ea eb) := by
  obtain ⟨hv, hr, _⟩ := new_hyphen_free ha
  obtain ⟨hv', hr', _⟩ := new_hyphen_free hb
  unfold EvrCompare RpmEvr.cmp
  rw [ha, hb]
  simp only [RpmEvr.lt, RpmEvr.eq, evr_cmp_impl_eq σ ea eb hv hv' hr hr', Except.map]
  rcases evrOrder_values σ ea eb with h | h | h <;> rw [h] <;> rfl

theorem versionCompare_eq_labelOrder (σ : Storage) {a b : List Char} (ha : '-' ∉ a)
    (hb : '-' ∉ b) : VersionCompare σ a b = Except.ok (labelOrder σ a b) :=
  cmp_eq σ ha hb

theorem new_bare {s : List Char} (h1 : ':' ∉ s) (h2 : '-' ∉ s) :
    RpmEvr.new s = Except.ok ⟨0, s, []⟩ := by
  have hvalid : RpmEvr.isValid s = Except.ok [] := by
    rw [isValid_no_colon h1, List.count_eq_zero_of_not_mem h2]
    rfl
  rw [new_of_accepted hvalid]
  exact parseEvr_plain s h1 h2

theorem new_version_release {v r : List Char} (hv1 : ':' ∉ v) (hv2 : '-' ∉ v) (hr1 : ':' ∉ r)
    (hr2 : '-' ∉ r) : RpmEvr.new (v ++ '-' :: r) = Except.ok ⟨0, v, r⟩ := by
  have hc : ':' ∉ v ++ '-' :: r := by
    simp only [List.mem_append, List.mem_cons, not_or]
    exact ⟨hv1, by decide, hr1⟩
  have hcount : ¬ List.count '-' (v ++ '-' :: r) > 1 := by
    rw [count_first '-' v r hv2, List.count_eq_zero_of_not_mem hr2]
    omega
  have hvalid : RpmEvr.isValid (v ++ '-' :: r) = Except.ok [] := by
    rw [isValid_no_colon hc, if_neg hcount]
  rw [new_of_accepted hvalid]
  exact parseEvr_hyphen v r hc hv2

/-- The empty label has no views, so only the sizes of the two vectors are
compared. -/
theorem labelOrder_nil_left (σ : Storage) {r : List Char} (hr1 : '~' ∉ r) :
    labelOrder σ [] r =
      if '^' ∈ r ∨ ∃ c ∈ r, isdigit c = true ∨ isalpha c = true then -1 else 0 := by
  unfold labelOrder
  have hs : RpmVer.segments [] = [] := rfl
  simp only [List.not_mem_nil, if_false, hr1, hs]
  by_cases h2 : '^' ∈ r
  · simp only [h2, if_true, true_or]
  · by_cases h3 : ∃ c ∈ r, isdigit c = true ∨ isalpha c = true
    · have hne := segments_ne_nil h3
      simp only [h2, if_false, h3, or_true, if_true]
      cases hseg : RpmVer.segments r with
      | nil => exact absurd hseg hne
      | cons x xs => rfl
    · have hnil : RpmVer.segments r = [] := by
        rw [segments_eq_nil_iff]
        intro c hc
        by_contra hne
        apply h3
        refine ⟨c, hc, ?_⟩
        cases hd : isdigit c
        · cases hl : isalpha c
          · rw [hd, hl] at hne
            exact absurd rfl hne
          · exact Or.inr rfl
        · exact Or.inl rfl
      simp only [h2, h3, or_self, if_false, hnil]
      rfl

/-! ## Properties of `EvrCompare` -/

/-- C21, the epoch comes first: for two strings from which an Evr can be
constructed, `EvrCompare` is `-1` when the epoch of the first is the smaller
one and `1` when it is the larger one, whatever the versions and releases;
and the epoch of a string without a colon is `0`.  This holds whatever the
released storage holds. -/
theorem EvrCompare_epoch (σ : Storage) (a b : List Char) (ea eb : RpmEvr)
    (ha : RpmEvr.new a = Except.ok ea) (hb : RpmEvr.new b = Except.ok eb) :
    (ea.epoch < eb.epoch → EvrCompare σ a b = Except.ok (-1)) ∧
      (ea.epoch > eb.epoch → EvrCompare σ a b = Except.ok 1) ∧
      (':' ∉ a → ea.epoch = 0) := by
  rw [evrCompare_eq σ ha hb]
  refine ⟨?_, ?_, (new_hyphen_free ha).2.2⟩
  · intro h
    have h' : ¬ ea.epoch > eb.epoch := by omega
    unfold evrOrder
    rw [if_neg h', if_pos h]
  · intro h
    unfold evrOrder
    rw [if_pos h]

/-- C21 at `1.2.3-1` against `1:foo.bar-1`, in both directions. -/
theorem EvrCompare_epoch_witness :
    EvrCompare Storage.intact "1.2.3-1".toList "1:foo.bar-1".toList = Except.ok (-1) ∧
      EvrCompare Storage.intact "1:foo.bar-1".toList "1.2.3-1".toList = Except.ok 1 :=
  ⟨(EvrCompare_epoch Storage.intact "1.2.3-1".toList "1:foo.bar-1".toList
      ⟨0, "1.2.3".toList, "1".toList⟩ ⟨1, "foo.bar".toList, "1".toList⟩ rfl rfl).1 (by decide),
    (EvrCompare_epoch Storage.intact "1:foo.bar-1".toList "1.2.3-1".toList
      ⟨1, "foo.bar".toList, "1".toList⟩ ⟨0, "1.2.3".toList, "1".toList⟩ rfl rfl).2.1
      (by decide)⟩

/-- C23, failing inputs: `~` and `.` are non-empty labels without a hyphen;
whatever the released storage holds, `VersionCompare` of the empty label
against `~` is `1` and against `.` it is `0`, and `EvrCompare` of `1` against
`1-~` is `1`, against `1-.` it is `0`. -/
theorem VersionCompare_empty_not_older :
    ("~".toList ≠ [] ∧ '-' ∉ "~".toList ∧ ".".toList ≠ [] ∧ '-' ∉ ".".toList) ∧
      ∀ σ : Storage,
        VersionCompare σ "".toList "~".toList = Except.ok 1 ∧
        VersionCompare σ "".toList ".".toList = Except.ok 0 ∧
        EvrCompare σ "1".toList ("1".toList ++ "-".toList ++ "~".toList) = Except.ok 1 ∧
        EvrCompare σ "1".toList ("1".toList ++ "-".toList ++ ".".toList) = Except.ok 0 := by
  refine ⟨⟨by decide, by decide, by decide, by decide⟩, fun σ => ⟨rfl, rfl, ?_, ?_⟩⟩
  · have h : EvrCompare σ "1".toList ("1".toList ++ "-".toList ++ "~".toList) =
        Except.ok (evrOrder σ ⟨0, "1".toList, []⟩ ⟨0, "1".toList, "~".toList⟩) :=
      evrCompare_eq σ rfl rfl
    rw [h]
    unfold evrOrder
    simp only [gt_iff_lt, Nat.lt_irrefl, if_false,
      labelOrder_self σ (a := "1".toList) (by decide) (by decide), ne_eq, not_true_eq_false]
    rfl
  · have h : EvrCompare σ "1".toList ("1".toList ++ "-".toList ++ ".".toList) =
        Except.ok (evrOrder σ ⟨0, "1".toList, []⟩ ⟨0, "1".toList, ".".toList⟩) :=
      evrCompare_eq σ rfl rfl
    rw [h]
    unfold evrOrder
    simp only [gt_iff_lt, Nat.lt_irrefl, if_false,
      labelOrder_self σ (a := "1".toList) (by decide) (by decide), ne_eq, not_true_eq_false]
    rfl

/-- C23 as amended: for a label `r` without `-` and `~`, `VersionCompare` of
the empty label against `r` is `-1` when `r` has a `^` or a letter or digit,
and `0` otherwise; and when `r` has no `:` either, for every `v` without `:`,
`-`, `~`, `^`, `EvrCompare` of `v` against `v ++ "-" ++ r` is that same
result (so never `1`).  The empty label has no view to read through, and `v`
is compared with itself, so this holds whatever the released storage
holds. -/
theorem VersionCompare_empty_release (σ : Storage) (r : List Char) (hr : '-' ∉ r)
    (hr1 : '~' ∉ r) :
    (('^' ∈ r ∨ ∃ c ∈ r, isdigit c = true ∨ isalpha c = true) →
        VersionCompare σ "".toList r = Except.ok (-1)) ∧
      (¬ ('^' ∈ r ∨ ∃ c ∈ r, isdigit c = true ∨ isalpha c = true) →
        VersionCompare σ "".toList r = Except.ok 0) ∧
      (∀ v : List Char, ':' ∉ r → ':' ∉ v → '-' ∉ v → '~' ∉ v → '^' ∉ v →
        EvrCompare σ v (v ++ "-".toList ++ r) = VersionCompare σ "".toList r) := by
  have hnil : '-' ∉ "".toList := by decide
  have hemp : "".toList = ([] : List Char) := rfl
  rw [versionCompare_eq_labelOrder σ hnil hr, hemp, labelOrder_nil_left σ hr1]
  refine ⟨fun h => by rw [if_pos h], fun h => by rw [if_neg h], ?_⟩
  intro v hr2 hv1 hv2 hv3 hv4
  have e : v ++ "-".toList ++ r = v ++ '-' :: r := by
    rw [hyphen_toList]
    simp
  rw [e, evrCompare_eq σ (new_bare hv1 hv2) (new_version_release hv1 hv2 hr2 hr)]
  unfold evrOrder
  simp only [gt_iff_lt, Nat.lt_irrefl, if_false, labelOrder_self σ hv3 hv4, ne_eq,
    not_true_eq_false, labelOrder_nil_left σ hr1]

/-- C23 as amended at the release `1` and the version `1.0`. -/
theorem VersionCompare_empty_release_witness :
    VersionCompare Storage.intact "".toList "1".toList = Except.ok (-1) ∧
      EvrCompare Storage.intact "1.0".toList ("1.0".toList ++ "-".toList ++ "1".toList) =
        VersionCompare Storage.intact "".toList "1".toList :=
  have h := VersionCompare_empty_release Storage.intact "1".toList (by decide) (by decide)
  ⟨h.1 (Or.inr ⟨'1', by decide, Or.inl (by decide)⟩),
    h.2.2 "1.0".toList (by decide) (by decide) (by decide) (by decide) (by decide)⟩

/-- C24: when `EvrValidate lhs` returns a non-empty diagnostic, `EvrCompare
lhs rhs` fails with that diagnostic whatever `rhs` is; when `EvrValidate lhs`
returns the empty one and `EvrValidate rhs` a non-empty one, `EvrCompare lhs
rhs` fails with the diagnostic of `rhs`. -/
theorem EvrCompare_propagates (σ : Storage) (lhs rhs msg : List Char) (hne : msg ≠ []) :
    (EvrValidate lhs = Except.ok msg →
        EvrCompare σ lhs rhs = Except.error (Exn.invalid_argument msg)) ∧
      (EvrValidate lhs = Except.ok "".toList → EvrValidate rhs = Except.ok msg →
        EvrCompare σ lhs rhs = Except.error (Exn.invalid_argument msg)) := by
  constructor
  · intro h
    unfold EvrCompare RpmEvr.cmp
    rw [new_rejected h hne]
  · intro hl hrhs
    obtain ⟨evr, hp, _⟩ := parseEvr_of_accepted hl
    have hnew : RpmEvr.new lhs = Except.ok evr := by
      rw [new_of_accepted hl]
      exact hp
    unfold EvrCompare RpmEvr.cmp
    rw [hnew, new_rejected hrhs hne]

/-- C24 at `1.2.3-a-` against `-1:1.2.3`, and at `1.2.3` against
`-1:1.2.3`. -/
theorem EvrCompare_propagates_witness :
    EvrCompare Storage.intact "1.2.3-a-".toList "-1:1.2.3".toList =
        Except.error (Exn.invalid_argument "EVR must contain only one hyphen symbol!".toList) ∧
      EvrCompare Storage.intact "1.2.3".toList "-1:1.2.3".toList =
        Except.error (Exn.invalid_argument "Epoch must be a positive number!".toList) :=
  ⟨(EvrCompare_propagates Storage.intact "1.2.3-a-".toList "-1:1.2.3".toList
      "EVR must contain only one hyphen symbol!".toList (by decide)).1 rfl,
    (EvrCompare_propagates Storage.intact "1.2.3".toList "-1:1.2.3".toList
      "Epoch must be a positive number!".toList (by decide)).2 rfl rfl⟩

/-- C28: from a string that `EvrValidate` accepts an Evr is constructed, and
neither its version nor its release has a hyphen; and `EvrCompare` of two
accepted strings does not fail and gives `-1`, `0` or `1`, whatever the
released storage holds. -/
theorem EvrCompare_accepted (σ : Storage) (s t : List Char)
    (hs : EvrValidate s = Except.ok "".toList) (ht : EvrValidate t = Except.ok "".toList) :
    (∃ evr : RpmEvr, RpmEvr.new s = Except.ok evr ∧ '-' ∉ evr.version ∧ '-' ∉ evr.release) ∧
      ∃ x : Int, EvrCompare σ s t = Except.ok x ∧ (x = -1 ∨ x = 0 ∨ x = 1) := by
  obtain ⟨es, hps, hs1, hs2, _⟩ := parseEvr_of_accepted hs
  obtain ⟨et, hpt, _⟩ := parseEvr_of_accepted ht
  have hns : RpmEvr.new s = Except.ok es := by
    rw [new_of_accepted hs]
    exact hps
  have hnt : RpmEvr.new t = Except.ok et := by
    rw [new_of_accepted ht]
    exact hpt
  exact ⟨⟨es, hns, hs1, hs2⟩, evrOrder σ es et, evrCompare_eq σ hns hnt,
    evrOrder_values σ es et⟩

/-- C28 at `1-2:3`, whose hyphen is before the colon, against `1:1.2.3-a`. -/
theorem EvrCompare_accepted_witness :
    (∃ evr : RpmEvr, RpmEvr.new "1-2:3".toList = Except.ok evr ∧ '-' ∉ evr.version ∧
        '-' ∉ evr.release) ∧
      ∃ x : Int, EvrCompare Storage.intact "1-2:3".toList "1:1.2.3-a".toList = Except.ok x ∧
        (x = -1 ∨ x = 0 ∨ x = 1) :=
  EvrCompare_accepted Storage.intact "1-2:3".toList "1:1.2.3-a".toList rfl rfl

end rpmcmplib
